import Mathlib

/-!
Verification development for the opnix repository.

The visible sources are: the NixOS / Home Manager modules and the devshell
(`src/unnamed/part_000 .. part_002` first half), the Go `opnix` CLI pieces for
the `env` and `token` subcommands (`src/unnamed/part_002` second half,
`src/cmd/opnix/token.go`), and the documentation (`src/unnamed/part_003`).
The deployment engine proper (`opnix secret`: manifest loader, hash store,
file materializer, change detector, service notifier, orchestrator) is not
among the visible sources; where a claim depends on it, the engine is
modelled from the specification and the definition says so in its
doc comment.

Strings are embedded as Lean `String`; Go maps are embedded as association
lists with last-insert-wins semantics (`alInsert` / `alLookup`), with
key-uniqueness hypotheses where a theorem needs map-like behaviour.
-/

namespace Opnix

/-- Association-list lookup: first entry whose key matches.  Used to embed Go
map reads (`values[key]`). -/
def alLookup (k : String) : List (String × String) → Option String
  | [] => none
  | p :: rest => if p.1 = k then some p.2 else alLookup k rest

/-- Association-list insert with overwrite: embeds Go map assignment
(`m[k] = v`), which replaces any previous binding of `k`. -/
def alInsert (k v : String) (l : List (String × String)) : List (String × String) :=
  (k, v) :: l.filter (fun p => p.1 ≠ k)

theorem alLookup_alInsert_self (k v : String) (l : List (String × String)) :
    alLookup k (alInsert k v l) = some v := by
  simp [alInsert, alLookup]

theorem alLookup_filter_ne (k k' : String) (h : k ≠ k') :
    ∀ l : List (String × String),
      alLookup k (l.filter (fun p => p.1 ≠ k')) = alLookup k l := by
  intro l
  induction l with
  | nil => rfl
  | cons p rest ih =>
      by_cases hp : p.1 = k'
      · have hpk : p.1 ≠ k := fun he => h (he ▸ hp)
        rw [List.filter_cons_of_neg (by simp [hp])]
        simp only [alLookup, if_neg hpk]
        exact ih
      · rw [List.filter_cons_of_pos (by simp [hp])]
        simp only [alLookup]
        by_cases hk : p.1 = k
        · rw [if_pos hk, if_pos hk]
        · rw [if_neg hk, if_neg hk]
          exact ih

theorem alLookup_alInsert_ne (k k' v : String) (l : List (String × String))
    (h : k' ≠ k) : alLookup k (alInsert k' v l) = alLookup k l := by
  simp only [alInsert, alLookup, if_neg h]
  exact alLookup_filter_ne k k' (fun he => h he.symm) l

theorem alLookup_mem {k v : String} : ∀ {l : List (String × String)},
    alLookup k l = some v → (k, v) ∈ l := by
  intro l
  induction l with
  | nil => intro h; simp [alLookup] at h
  | cons p rest ih =>
      intro h
      by_cases hp : p.1 = k
      · obtain ⟨a, b⟩ := p
        simp only at hp
        subst hp
        simp only [alLookup, if_pos] at h
        injection h with hv
        subst hv
        exact List.mem_cons_self _ _
      · simp only [alLookup, if_neg hp] at h
        exact List.mem_cons_of_mem _ (ih h)

theorem alLookup_eq_none_iff {k : String} : ∀ {l : List (String × String)},
    alLookup k l = none ↔ k ∉ l.map Prod.fst := by
  intro l
  induction l with
  | nil => simp [alLookup]
  | cons p rest ih =>
      by_cases hp : p.1 = k
      · simp [alLookup, hp]
      · simp only [alLookup, if_neg hp, List.map_cons, List.mem_cons, not_or, ih]
        exact ⟨fun h => ⟨fun he => hp he.symm, h⟩, fun h => h.2⟩

theorem mem_alLookup {k v : String} : ∀ {l : List (String × String)},
    (l.map Prod.fst).Nodup → (k, v) ∈ l → alLookup k l = some v := by
  intro l
  induction l with
  | nil => intro _ h; simp at h
  | cons p rest ih =>
      intro hnd h
      simp only [List.map_cons, List.nodup_cons] at hnd
      rcases List.mem_cons.mp h with he | hm
      · cases he.symm
        simp [alLookup]
      · have hk : k ∈ rest.map Prod.fst := List.mem_map.mpr ⟨(k, v), hm, rfl⟩
        have hp : p.1 ≠ k := fun he => hnd.1 (he ▸ hk)
        simp only [alLookup, if_neg hp]
        exact ih hnd.2 hm

/-! ## The `opnix env` subcommand (Go source, src/unnamed/part_002)

Embeds `envVariable`, `envProcessor.resolveVariable`, `envProcessor.Process`,
`validateEnvConfig`, `envNamePattern`, the renderers and the quoting helpers,
translated line for line from the Go source. -/

/-- Go struct `envVariable` (JSON tags omitted; `Description` is never read by
the logic and is dropped). -/
structure EnvVariable where
  name : String
  reference : String := ""
  value : String := ""
  optional : Bool := false
  preserveWhitespace : Bool := false
deriving DecidableEq

/-- Go method `envVariable.shouldTrim`. -/
def EnvVariable.shouldTrim (v : EnvVariable) : Bool := !v.preserveWhitespace

/-- Errors surfaced by the env subcommand, abstracting the structured
`errors.OpnixError` values built in the Go source: which constructor is built
and which data it carries mirrors the corresponding `errors.*` call. -/
inductive EnvError
  /-- `errors.WrapWithSuggestions` around a failed `resolver.ResolveSecret`:
  carries the variable name and the underlying resolver message. -/
  | resolutionFailed (name : String) (underlying : String)
  /-- `errors.ConfigError` for a variable with neither reference nor value;
  carries the index reported in the message. -/
  | missingDefinition (index : Nat)
deriving DecidableEq

/-- Go method `envProcessor.resolveVariable` (src/unnamed/part_002).
`resolver` embeds the injected `secretResolver.ResolveSecret`;
`strings.TrimSpace` is embedded as `String.trim`. -/
def resolveVariable (resolver : String → Except String String)
    (v : EnvVariable) (index : Nat) : Except EnvError String :=
  if v.reference ≠ "" then
    match resolver v.reference with
    | .error e => .error (.resolutionFailed v.name e)
    | .ok value => .ok (if v.shouldTrim then value.trim else value)
  else if v.value ≠ "" then
    .ok (if v.shouldTrim then v.value.trim else v.value)
  else
    .error (.missingDefinition index)

/-- Go struct `envSkippedVariable`, flattened to (name, error). -/
abbrev EnvSkipped := String × EnvError

/-- Go struct `envResult`: the `Values` map and the `Skipped` list. -/
structure EnvResult where
  values : List (String × String)
  skipped : List EnvSkipped
deriving DecidableEq

/-- The loop body of `envProcessor.Process`: iterates the variables with
their indices, accumulating the result. -/
def envProcessAux (resolver : String → Except String String) :
    List EnvVariable → Nat → EnvResult → Except EnvError EnvResult
  | [], _, acc => .ok acc
  | v :: rest, i, acc =>
    match resolveVariable resolver v i with
    | .error e =>
        if v.optional then
          envProcessAux resolver rest (i + 1)
            { acc with skipped := acc.skipped ++ [(v.name, e)] }
        else
          .error e
    | .ok value =>
        envProcessAux resolver rest (i + 1)
          { acc with values := alInsert v.name value acc.values }

/-- Go method `envProcessor.Process` (src/unnamed/part_002), for a non-nil
configuration: processes `cfg.Vars` in order. -/
def envProcess (resolver : String → Except String String)
    (vars : List EnvVariable) : Except EnvError EnvResult :=
  envProcessAux resolver vars 0 { values := [], skipped := [] }

/-- Character class `[A-Z]`. -/
def isUpperAZ (c : Char) : Bool := decide (Char.ofNat 65 ≤ c) && decide (c ≤ Char.ofNat 90)

/-- Character class `[0-9]`. -/
def isDigit09 (c : Char) : Bool := decide (Char.ofNat 48 ≤ c) && decide (c ≤ Char.ofNat 57)

/-- Go `envNamePattern = regexp.MustCompile(^[A-Z][A-Z0-9_]*$)`: full-string
match of one uppercase letter followed by uppercase letters, digits or
underscores. -/
def envNameMatch (s : String) : Bool :=
  match s.data with
  | [] => false
  | c :: rest => isUpperAZ c && rest.all (fun d => isUpperAZ d || isDigit09 d || d = '_')

/-- The distinct `errors.ConfigValidationError` values `validateEnvConfig`
can return, keyed by which check fired (src/unnamed/part_002). -/
inductive EnvValidationIssue
  | noVars
  | emptyName (index : Nat)
  | badName (index : Nat) (name : String)
  | bothRefAndValue (index : Nat) (name : String)
  | neitherRefNorValue (index : Nat) (name : String)
deriving DecidableEq

/-- The per-variable loop of Go `validateEnvConfig`: first failing check of
the first failing variable wins, in source order. -/
def validateEnvVarsAux : List EnvVariable → Nat → Option EnvValidationIssue
  | [], _ => none
  | v :: rest, i =>
    if v.name = "" then some (.emptyName i)
    else if !envNameMatch v.name then some (.badName i v.name)
    else if v.reference ≠ "" && v.value ≠ "" then some (.bothRefAndValue i v.name)
    else if v.reference = "" && v.value = "" then some (.neitherRefNorValue i v.name)
    else validateEnvVarsAux rest (i + 1)

/-- Go `validateEnvConfig` (src/unnamed/part_002): `none` means the nil error,
i.e. the configuration is accepted. -/
def validateEnvConfig (vars : List EnvVariable) : Option EnvValidationIssue :=
  if vars.length = 0 then some .noVars
  else validateEnvVarsAux vars 0

/-- The single-quote character, kept out of literals. -/
def squote : Char := Char.ofNat 39

/-- The double-quote character, kept out of literals. -/
def dquote : Char := Char.ofNat 34

/-- Go `strings.ReplaceAll` specialised to a single-character pattern, over
character lists: every occurrence of `c` becomes `rep`. -/
def replaceChar (c : Char) (rep : List Char) (l : List Char) : List Char :=
  l.flatMap (fun x => if x = c then rep else [x])

/-- Go `shellQuote` (src/unnamed/part_002): empty value renders as two single
quotes; otherwise the value is wrapped in single quotes with every embedded
single quote replaced by the five-character sequence quote dquote quote
dquote quote. -/
def shellQuoteL (v : List Char) : List Char :=
  if v = [] then [squote, squote]
  else squote :: (replaceChar squote [squote, dquote, squote, dquote, squote] v ++ [squote])

/-- String-level wrapper for `shellQuoteL`. -/
def shellQuote (value : String) : String := ⟨shellQuoteL value.data⟩

/-- The character set of Go `strings.ContainsAny(value, shellDotenvSpecials)`
in `dotenvValue`: space, hash, double quote, single quote, newline, carriage
return, tab. -/
def dotenvSpecials : List Char := [' ', '#', dquote, squote, '\n', '\r', '\t']

/-- Go `dotenvValue` (src/unnamed/part_002): empty value renders empty; a
value containing a special character is escaped (backslash, double quote,
newline, carriage return, tab — in source order) and wrapped in double
quotes; anything else passes through unchanged. -/
def dotenvValueL (v : List Char) : List Char :=
  if v = [] then []
  else if v.any (fun c => dotenvSpecials.contains c) then
    dquote ::
      (replaceChar '\t' ['\\', 't']
        (replaceChar '\r' ['\\', 'r']
          (replaceChar '\n' ['\\', 'n']
            (replaceChar dquote ['\\', dquote]
              (replaceChar '\\' ['\\', '\\'] v)))) ++ [dquote])
  else v

/-- String-level wrapper for `dotenvValueL`. -/
def dotenvValue (value : String) : String := ⟨dotenvValueL value.data⟩

/-- Go `sort.Strings`, embedded as insertion sort by the lexicographic
order on `String`. -/
def sortStrings (l : List String) : List String := List.insertionSort (· ≤ ·) l

/-- Go `renderShell` (src/unnamed/part_002): collect the map keys, sort them,
emit one `export K=V` entry per key with the value shell-quoted, each entry
terminated by a newline. -/
def renderShellL (values : List (String × String)) : List Char :=
  (sortStrings (values.map Prod.fst)).flatMap
    (fun k => "export ".data ++ k.data ++ ['='] ++
      shellQuoteL ((alLookup k values).getD "").data ++ ['\n'])

/-- String-level wrapper for `renderShellL`. -/
def renderShell (values : List (String × String)) : String := ⟨renderShellL values⟩

/-- Go `renderDotenv` (src/unnamed/part_002): collect the map keys, sort
them, emit one `K=V` entry per key with the value dotenv-escaped, each entry
terminated by a newline. -/
def renderDotenvL (values : List (String × String)) : List Char :=
  (sortStrings (values.map Prod.fst)).flatMap
    (fun k => k.data ++ ['='] ++
      dotenvValueL ((alLookup k values).getD "").data ++ ['\n'])

/-- String-level wrapper for `renderDotenvL`. -/
def renderDotenv (values : List (String × String)) : String := ⟨renderDotenvL values⟩

/-! ## The NixOS module (src/unnamed/part_002, Nix)

Embeds the pieces of `services.onepassword-secrets` the claims depend on:
the mode assertion, the declarative config file, `allConfigFiles`, and the
systemd unit script that runs `opnix secret` once per config file. -/

/-- The observable phases of one `opnix secret -config f` invocation, in the
order the spec engine lifecycle performs them: the manifest of `f` is loaded
and validated, then its secrets are resolved, written and committed
(`deployConfig`) before the process exits. -/
inductive RunEvent
  | loadConfig (file : String)
  | deployConfig (file : String)
deriving DecidableEq

/-- One `opnix secret -token-file … -config f -output …` process run, as
emitted by the systemd unit script. -/
def invocationEvents (f : String) : List RunEvent :=
  [.loadConfig f, .deployConfig f]

/-- The systemd unit script of `services.opnix-secrets`
(src/unnamed/part_002, `lib.concatMapStringsSep`): one separate `opnix
secret` invocation per config file, in file-list order. -/
def scriptEvents (files : List String) : List RunEvent :=
  files.flatMap invocationEvents

/-- Whether an event is a manifest load. -/
def RunEvent.isLoad : RunEvent → Bool
  | .loadConfig _ => true
  | .deployConfig _ => false

/-- The claim-side discipline "all manifests are merged (loaded) into a
single manifest before any secret is resolved or written": every load event
precedes every deploy event, i.e. after the leading block of loads no
further load occurs. -/
def mergedLoadDiscipline (evs : List RunEvent) : Bool :=
  (evs.dropWhile RunEvent.isLoad).all (fun e => !e.isLoad)

/-- A declarative secret of the module, restricted to the fields the mode
assertion reads (`cfg.secrets` attribute name and `mode`). -/
structure DeclSecret where
  name : String
  mode : String
deriving DecidableEq

/-- The Nix assertion `builtins.match "^[0-7]\x7b3,4\x7d$" secret.mode != null`
(src/unnamed/part_002): a full-string match of three or four octal digits. -/
def octalModeMatch (mode : String) : Bool :=
  (mode.length = 3 || mode.length = 4) &&
    mode.data.all (fun c => decide ('0' ≤ c) && decide (c ≤ '7'))

/-- The module's `assertions` list (src/unnamed/part_002): the
at-least-one-config-method assertion followed by one mode assertion per
declarative secret. -/
def moduleAssertions (configFiles : List String) (secrets : List DeclSecret) :
    List (Bool × String) :=
  (decide (configFiles ≠ [] ∨ secrets ≠ []),
      "OpNix: At least one of configFiles or secrets must be specified")
    :: secrets.map (fun s =>
      (octalModeMatch s.mode,
        "OpNix secret " ++ s.name ++ ": mode " ++ s.mode ++
          " is not a valid octal permission"))

/-- `allConfigFiles` (src/unnamed/part_002): the explicit config files
followed by the generated declarative config file when declarative secrets
exist. -/
def allConfigFiles (configFiles : List String) (secrets : List DeclSecret) :
    List String :=
  configFiles ++ (if secrets ≠ [] then ["opnix-declarative-secrets.json"] else [])

/-- NixOS module evaluation: the configuration is accepted, and the systemd
unit script produced, only if every assertion holds; otherwise evaluation
aborts with the first failing assertion's message and no script (hence no
load/deploy event) exists. -/
def moduleEval (configFiles : List String) (secrets : List DeclSecret) :
    Except String (List RunEvent) :=
  match (moduleAssertions configFiles secrets).find? (fun a => !a.1) with
  | some a => .error a.2
  | none => .ok (scriptEvents (allConfigFiles configFiles secrets))

/-- Whether an `Except` is a success. -/
def exceptOk {e a : Type} : Except e a → Bool
  | .ok _ => true
  | .error _ => false

/-! ## Documented option defaults (src/unnamed/part_003, configuration
reference) -/

/-- The `systemdIntegration.errorHandling` option set with its documented
defaults (src/unnamed/part_003: `rollbackOnFailure` default `false`,
`continueOnError` default `true`, `maxRetries` default `3`). -/
structure ErrorHandlingOptions where
  rollbackOnFailure : Bool := false
  continueOnError : Bool := true
  maxRetries : Nat := 3
deriving DecidableEq

/-- The documented defaults of `errorHandling`. -/
def errorHandlingDefaults : ErrorHandlingOptions := {}

/-! ## Manifest Loader path resolution (modelled from the spec)

The Go manifest loader (`internal/config`) is not among the visible
sources; only its Nix callers are.  The definitions below are modelled from
the spec: SecretSpec path fields (section 3), loader validation and template
expansion (section 4.1), the template-correctness property (section 8) and
the documented template variables (src/unnamed/part_003: user `variables`
take precedence, then `defaults`, and `name` is built in as the secret's
name). -/

/-- Modelled from the spec: a `SecretSpec` restricted to the fields that
path resolution reads (`name`, `path`, and `variables`, embedded as the
field `vars` since `variables` is a Lean keyword). -/
structure SecretSpec where
  name : String
  path : Option String
  vars : List (String × String)
deriving DecidableEq

/-- Modelled from the spec: a `ConfigError` raised by the loader, naming the
template variable it could not satisfy. -/
inductive ConfigError
  | missingVariable (name : String)
deriving DecidableEq

/-- Modelled from the spec: the template variable lookup — the secret's own
`variables` first, then the manifest `defaults`, with `name` built in as the
secret's name. -/
def lookupVar (s : SecretSpec) (defaults : List (String × String))
    (v : String) : Option String :=
  match alLookup v s.vars with
  | some x => some x
  | none =>
      match alLookup v defaults with
      | some x => some x
      | none => if v = "name" then some s.name else none

/-- Modelled from the spec: expansion of `\x7bvar\x7d` placeholders in a path
template.  The scan is left to right; `inVar = some acc` means the scanner
is inside a placeholder whose name so far is `acc` reversed.  An
unsatisfiable placeholder fails with a `ConfigError` naming the variable;
an unterminated placeholder fails naming the partial variable. -/
def substAux (look : String → Option String) :
    List Char → Option (List Char) → Except ConfigError (List Char)
  | [], none => .ok []
  | [], some acc => .error (.missingVariable ⟨acc.reverse⟩)
  | c :: rest, none =>
      if c = '{' then substAux look rest (some [])
      else (substAux look rest none).map (fun t => c :: t)
  | c :: rest, some acc =>
      if c = '}' then
        match look ⟨acc.reverse⟩ with
        | none => .error (.missingVariable ⟨acc.reverse⟩)
        | some val => (substAux look rest none).map (fun t => val.data ++ t)
      else substAux look rest (some (c :: acc))

/-- Modelled from the spec: template expansion at the string level. -/
def expandTemplate (look : String → Option String) (t : String) :
    Except ConfigError String :=
  (substAux look t.data none).map (fun l => (⟨l⟩ : String))

/-- Modelled from the spec (section 3 data model, section 4.1): the resolved
destination path of a secret — the explicit `path` when present, else the
expanded `pathTemplate` when one is configured, else `outputDir/name`. -/
def resolveSecretPath (outputDir : String) (pathTemplate : Option String)
    (defaults : List (String × String)) (s : SecretSpec) :
    Except ConfigError String :=
  match s.path with
  | some p => .ok p
  | none =>
      match pathTemplate with
      | some t => expandTemplate (lookupVar s defaults) t
      | none => .ok (outputDir ++ "/" ++ s.name)

/-! ## Deployment engine (modelled from the spec)

The `opnix secret` engine (hash store, change detector, file materializer,
service notifier, orchestrator — spec sections 4.2-4.7) is not among the
visible sources; only its Nix callers and its documentation are.  The model
below follows the spec: secrets are processed sequentially (the spec's
worker pool joins at a barrier before commit and notify, so the observable
per-run result is that of the sequential order), each secret is resolved
with retries, classified against the hash store, written atomically, and the
store is committed at most once, after the write phase, followed by the
deduplicated notifications.  Failure policy follows section 4.7
(`continueOnError`, `rollbackOnFailure`). -/

/-- Modelled from the spec (section 4.2): the typed failures of the injected
secret resolver. -/
inductive ResolveError
  | notFound
  | authDenied
  | unavailable
deriving DecidableEq

/-- Modelled from the spec: a loader-validated secret as the engine sees it —
name, vault reference, resolved destination path, and attached services. -/
structure DeploySecret where
  name : String
  reference : String
  destPath : String
  services : List String
deriving DecidableEq

/-- Modelled from the spec (section 4.7): the engine policy knobs. -/
structure EngineConfig where
  continueOnError : Bool
  rollbackOnFailure : Bool
  maxRetries : Nat
deriving DecidableEq

/-- Modelled from the spec (section 3): per-secret outcome statuses. -/
inductive Outcome
  | unchanged
  | written
  | failed
  | skipped
deriving DecidableEq

/-- The observable actions of a run, in order: durable file writes, the
single hash-store commit (atomic replace of the persisted file), and
service notifications. -/
inductive Event
  | writeFile (path : String) (content : String)
  | commitStore (store : List (String × String))
  | notify (service : String)
deriving DecidableEq

/-- Whether an event is the hash-store commit. -/
def Event.isCommit : Event → Bool
  | .commitStore _ => true
  | _ => false

/-- Whether an event is a durable file write. -/
def Event.isWrite : Event → Bool
  | .writeFile _ _ => true
  | _ => false

/-- Modelled from the spec (section 4.2): resolution with retries —
`Unavailable` is retried up to `maxRetries` additional attempts,
`NotFound` / `AuthDenied` are terminal. -/
def resolveWithRetry (resolver : String → Except ResolveError String) :
    Nat → String → Except ResolveError String
  | 0, ref => resolver ref
  | n + 1, ref =>
      match resolver ref with
      | .error .unavailable => resolveWithRetry resolver n ref
      | r => r

/-- The in-flight state of the per-secret phase of a run. -/
structure LoopState where
  fs : List (String × String)
  store : List (String × String)
  outcomes : List (String × Outcome)
  writtenSecrets : List DeploySecret
  events : List Event
  failed : Bool
  aborted : Bool
deriving DecidableEq

/-- Modelled from the spec (sections 4.4, 4.5, 4.7): processing of one
secret.  After an abort the secret is only marked `Skipped`.  Otherwise the
secret is resolved (with retries); a resolution failure marks it `Failed`
and aborts the run when `continueOnError` is off.  A resolved secret whose
digest equals the stored record's digest is `Unchanged` (content not
rewritten, metadata reassertion carries no event in this model); otherwise
the content is written atomically — `writeOk` injects filesystem failures —
and the in-memory store record is updated only after the write succeeded. -/
def processSecret (hash : String → String)
    (resolver : String → Except ResolveError String)
    (writeOk : String → Bool) (cfg : EngineConfig)
    (st : LoopState) (s : DeploySecret) : LoopState :=
  if st.aborted then
    { st with outcomes := st.outcomes ++ [(s.name, .skipped)] }
  else
    match resolveWithRetry resolver cfg.maxRetries s.reference with
    | .error _ =>
        { st with outcomes := st.outcomes ++ [(s.name, .failed)],
                  failed := true, aborted := !cfg.continueOnError }
    | .ok content =>
        if alLookup s.name st.store = some (hash content) then
          { st with outcomes := st.outcomes ++ [(s.name, .unchanged)] }
        else if writeOk s.name then
          { st with fs := alInsert s.destPath content st.fs,
                    store := alInsert s.name (hash content) st.store,
                    outcomes := st.outcomes ++ [(s.name, .written)],
                    writtenSecrets := st.writtenSecrets ++ [s],
                    events := st.events ++ [.writeFile s.destPath content] }
        else
          { st with outcomes := st.outcomes ++ [(s.name, .failed)],
                    failed := true, aborted := !cfg.continueOnError }

/-- Modelled from the spec (section 4.7): rollback restores every written
secret's destination to its pre-run content (removing files that did not
exist before the run). -/
def restoreFs (fs0 : List (String × String)) (written : List DeploySecret)
    (fs : List (String × String)) : List (String × String) :=
  written.foldl
    (fun acc s =>
      match alLookup s.destPath fs0 with
      | some c => alInsert s.destPath c acc
      | none => acc.filter (fun p => p.1 ≠ s.destPath))
    fs

/-- Order-preserving deduplication of service names (a service referenced by
two changed secrets is notified once). -/
def dedupServices (l : List String) : List String :=
  l.foldl (fun acc x => if acc.contains x then acc else acc ++ [x]) []

/-- The report of one run. -/
structure RunResult where
  outcomes : List (String × Outcome)
  events : List Event
  fs : List (String × String)
  storeOnDisk : List (String × String)
  notified : List String
  success : Bool
deriving DecidableEq

/-- The state every run starts from: the pre-run filesystem and the hash
store as loaded from disk (`load()` happens once, at run start). -/
def initState (fs0 store0 : List (String × String)) : LoopState :=
  { fs := fs0, store := store0, outcomes := [], writtenSecrets := [],
    events := [], failed := false, aborted := false }

/-- Modelled from the spec (sections 4.3, 4.6, 4.7): the end-of-run
decision.  A strict abort (`continueOnError = false` stopped the run) or a
rollback (`rollbackOnFailure` and some failure) ends the run with no
hash-store commit and no notifications — rollback additionally restores the
pre-run file contents.  Otherwise the in-memory store is committed exactly
once, after the barrier, and then the services of the written secrets are
notified, deduplicated. -/
def finalize (cfg : EngineConfig) (fs0 store0 : List (String × String))
    (st : LoopState) : RunResult :=
  if st.aborted || (st.failed && cfg.rollbackOnFailure) then
    { outcomes := st.outcomes, events := st.events,
      fs := if cfg.rollbackOnFailure then restoreFs fs0 st.writtenSecrets st.fs else st.fs,
      storeOnDisk := store0, notified := [], success := false }
  else
    let services := dedupServices (st.writtenSecrets.flatMap DeploySecret.services)
    { outcomes := st.outcomes,
      events := st.events ++ [.commitStore st.store] ++ services.map .notify,
      fs := st.fs, storeOnDisk := st.store, notified := services,
      success := !st.failed }

/-- Modelled from the spec: a full engine run over a loader-validated
manifest — the per-secret phase over every secret in order, then the
end-of-run commit / notify / abort / rollback decision. -/
def runEngine (hash : String → String)
    (resolver : String → Except ResolveError String)
    (writeOk : String → Bool) (cfg : EngineConfig)
    (secrets : List DeploySecret)
    (fs0 store0 : List (String × String)) : RunResult :=
  finalize cfg fs0 store0
    (secrets.foldl (processSecret hash resolver writeOk cfg) (initState fs0 store0))

/-! ### Generic list helpers for the engine lemmas -/

theorem takeWhile_all {α : Type} (p : α → Bool) :
    ∀ l : List α, (∀ e ∈ l, p e = true) → l.takeWhile p = l := by
  intro l
  induction l with
  | nil => intro _; rfl
  | cons a t ih =>
      intro h
      have ha := h a (List.mem_cons_self a t)
      simp [List.takeWhile_cons, ha, ih (fun e he => h e (List.mem_cons_of_mem a he))]

theorem takeWhile_append_stop {α : Type} (p : α → Bool) :
    ∀ (l : List α) (x : α) (t : List α), (∀ e ∈ l, p e = true) → p x = false →
      (l ++ x :: t).takeWhile p = l := by
  intro l
  induction l with
  | nil => intro x t _ hx; simp [List.takeWhile_cons, hx]
  | cons a tl ih =>
      intro x t h hx
      have ha := h a (List.mem_cons_self a tl)
      simp [List.takeWhile_cons, ha]
      exact ih x t (fun e he => h e (List.mem_cons_of_mem a he)) hx

theorem filter_none {α : Type} (p : α → Bool) :
    ∀ l : List α, (∀ e ∈ l, p e = false) → l.filter p = [] := by
  intro l
  induction l with
  | nil => intro _; rfl
  | cons a t ih =>
      intro h
      have ha := h a (List.mem_cons_self a t)
      simp [List.filter_cons, ha, ih (fun e he => h e (List.mem_cons_of_mem a he))]

theorem Event.isWrite_not_isCommit {e : Event} (h : e.isWrite = true) :
    e.isCommit = false := by
  cases e <;> simp_all [Event.isWrite, Event.isCommit]

/-! ### Per-step characterisations of `processSecret` -/

section EngineLemmas

variable (hash : String → String) (resolver : String → Except ResolveError String)
variable (writeOk : String → Bool) (cfg : EngineConfig)

/-- Master case analysis of one `processSecret` step: skipped after an
abort, failed resolution, unchanged classification, successful write, or
failed write. -/
theorem processSecret_cases (st : LoopState) (s : DeploySecret) :
    (st.aborted = true ∧ processSecret hash resolver writeOk cfg st s =
      { st with outcomes := st.outcomes ++ [(s.name, Outcome.skipped)] }) ∨
    (st.aborted = false ∧ (∃ e, resolveWithRetry resolver cfg.maxRetries s.reference = .error e) ∧
      processSecret hash resolver writeOk cfg st s =
        { st with outcomes := st.outcomes ++ [(s.name, Outcome.failed)],
                  failed := true, aborted := !cfg.continueOnError }) ∨
    (st.aborted = false ∧ (∃ c, resolveWithRetry resolver cfg.maxRetries s.reference = .ok c ∧
      alLookup s.name st.store = some (hash c)) ∧
      processSecret hash resolver writeOk cfg st s =
        { st with outcomes := st.outcomes ++ [(s.name, Outcome.unchanged)] }) ∨
    (st.aborted = false ∧ (∃ c, resolveWithRetry resolver cfg.maxRetries s.reference = .ok c ∧
      alLookup s.name st.store ≠ some (hash c) ∧ writeOk s.name = true ∧
      processSecret hash resolver writeOk cfg st s =
        { st with fs := alInsert s.destPath c st.fs,
                  store := alInsert s.name (hash c) st.store,
                  outcomes := st.outcomes ++ [(s.name, Outcome.written)],
                  writtenSecrets := st.writtenSecrets ++ [s],
                  events := st.events ++ [Event.writeFile s.destPath c] })) ∨
    (st.aborted = false ∧ (∃ c, resolveWithRetry resolver cfg.maxRetries s.reference = .ok c ∧
      alLookup s.name st.store ≠ some (hash c) ∧ writeOk s.name = false) ∧
      processSecret hash resolver writeOk cfg st s =
        { st with outcomes := st.outcomes ++ [(s.name, Outcome.failed)],
                  failed := true, aborted := !cfg.continueOnError }) := by
  unfold processSecret
  split
  · next ha => exact Or.inl (by simp_all)
  · next ha =>
      have ha0 : st.aborted = false := by
        cases hsa : st.aborted
        · rfl
        · exact absurd hsa ha
      split
      · next e heq =>
          exact Or.inr (Or.inl ⟨ha0, ⟨e, heq⟩, rfl⟩)
      · next c heq =>
          split
          · next hl =>
              exact Or.inr (Or.inr (Or.inl ⟨ha0, ⟨c, heq, hl⟩, rfl⟩))
          · next hl =>
              split
              · next hw =>
                  exact Or.inr (Or.inr (Or.inr (Or.inl ⟨ha0, ⟨c, heq, hl, hw, rfl⟩⟩)))
              · next hw =>
                  refine Or.inr (Or.inr (Or.inr (Or.inr ⟨ha0, ⟨c, heq, hl, ?_⟩, rfl⟩)))
                  cases hww : writeOk s.name
                  · rfl
                  · exact absurd hww hw

/-- One step either leaves store, filesystem and events untouched, or it is
a successful write: the resolved content is placed at the destination, the
record digest at the name, and exactly one write event is appended. -/
theorem processSecret_write_char (st : LoopState) (s : DeploySecret) :
    ((processSecret hash resolver writeOk cfg st s).store = st.store ∧
     (processSecret hash resolver writeOk cfg st s).fs = st.fs ∧
     (processSecret hash resolver writeOk cfg st s).events = st.events) ∨
    (∃ c, resolveWithRetry resolver cfg.maxRetries s.reference = .ok c ∧
      (processSecret hash resolver writeOk cfg st s).store = alInsert s.name (hash c) st.store ∧
      (processSecret hash resolver writeOk cfg st s).fs = alInsert s.destPath c st.fs ∧
      (processSecret hash resolver writeOk cfg st s).events =
        st.events ++ [Event.writeFile s.destPath c]) := by
  rcases processSecret_cases hash resolver writeOk cfg st s with
    ⟨_, he⟩ | ⟨_, _, he⟩ | ⟨_, _, he⟩ | ⟨_, c, hres, _, _, he⟩ | ⟨_, _, he⟩
  · left; rw [he]
    exact ⟨rfl, rfl, rfl⟩
  · left; rw [he]
    exact ⟨rfl, rfl, rfl⟩
  · left; rw [he]
    exact ⟨rfl, rfl, rfl⟩
  · right
    exact ⟨c, hres, by rw [he], by rw [he], by rw [he]⟩
  · left; rw [he]
    exact ⟨rfl, rfl, rfl⟩

/-- One step appends exactly one outcome, for the processed secret, and the
failure flag turns on exactly when that outcome is `Failed`. -/
theorem processSecret_outcome (st : LoopState) (s : DeploySecret) :
    ∃ o, (processSecret hash resolver writeOk cfg st s).outcomes =
      st.outcomes ++ [(s.name, o)] ∧
      ((processSecret hash resolver writeOk cfg st s).failed = true ↔
        (st.failed = true ∨ o = Outcome.failed)) := by
  rcases processSecret_cases hash resolver writeOk cfg st s with
    ⟨_, he⟩ | ⟨_, _, he⟩ | ⟨_, _, he⟩ | ⟨_, c, hres, hl, hw, he⟩ | ⟨_, _, he⟩
  · exact ⟨.skipped, by rw [he], by rw [he]; simp⟩
  · exact ⟨.failed, by rw [he], by rw [he]; simp⟩
  · exact ⟨.unchanged, by rw [he], by rw [he]; simp⟩
  · exact ⟨.written, by rw [he], by rw [he]; simp⟩
  · exact ⟨.failed, by rw [he], by rw [he]; simp⟩

/-- The failure flag is monotone. -/
theorem processSecret_failed_mono (st : LoopState) (s : DeploySecret)
    (h : st.failed = true) :
    (processSecret hash resolver writeOk cfg st s).failed = true := by
  obtain ⟨o, _, hiff⟩ := processSecret_outcome hash resolver writeOk cfg st s
  exact hiff.mpr (Or.inl h)

/-- A step that turns the failure flag on records a `Failed` outcome for its
secret. -/
theorem processSecret_new_failure (st : LoopState) (s : DeploySecret)
    (h0 : st.failed = false)
    (h1 : (processSecret hash resolver writeOk cfg st s).failed = true) :
    (s.name, Outcome.failed) ∈ (processSecret hash resolver writeOk cfg st s).outcomes := by
  obtain ⟨o, heq, hiff⟩ := processSecret_outcome hash resolver writeOk cfg st s
  rcases hiff.mp h1 with hf | hf
  · rw [h0] at hf
    cases hf
  · rw [heq, hf]
    exact List.mem_append_right _ (List.mem_cons_self _ _)

/-- An abort can only appear together with a failure. -/
theorem processSecret_abort_failed (st : LoopState) (s : DeploySecret)
    (h : st.aborted = true → st.failed = true) :
    (processSecret hash resolver writeOk cfg st s).aborted = true →
    (processSecret hash resolver writeOk cfg st s).failed = true := by
  rcases processSecret_cases hash resolver writeOk cfg st s with
    ⟨ha, he⟩ | ⟨_, _, he⟩ | ⟨_, _, he⟩ | ⟨_, c, hres, hl, hw, he⟩ | ⟨_, _, he⟩ <;>
    rw [he] <;> intro hx
  · exact h hx
  · rfl
  · exact h hx
  · exact h hx
  · rfl

/-- With `continueOnError` off, the abort flag tracks the failure flag
exactly. -/
theorem processSecret_abort_sync (st : LoopState) (s : DeploySecret)
    (hc : cfg.continueOnError = false) (h : st.aborted = st.failed) :
    (processSecret hash resolver writeOk cfg st s).aborted =
    (processSecret hash resolver writeOk cfg st s).failed := by
  rcases processSecret_cases hash resolver writeOk cfg st s with
    ⟨ha, he⟩ | ⟨_, _, he⟩ | ⟨_, _, he⟩ | ⟨_, c, hres, hl, hw, he⟩ | ⟨_, _, he⟩ <;>
    rw [he] <;> simp [hc, h]

/-- A non-aborted, non-failing step resolved its secret and left the store
holding the digest of the resolved content under the secret's name. -/
theorem processSecret_store_digest (st : LoopState) (s : DeploySecret)
    (ha : st.aborted = false)
    (hf : (processSecret hash resolver writeOk cfg st s).failed = false) :
    ∃ c, resolveWithRetry resolver cfg.maxRetries s.reference = .ok c ∧
      alLookup s.name (processSecret hash resolver writeOk cfg st s).store =
        some (hash c) := by
  rcases processSecret_cases hash resolver writeOk cfg st s with
    ⟨ha2, he⟩ | ⟨_, _, he⟩ | ⟨_, hc, he⟩ | ⟨_, c, hres, hl, hw, he⟩ | ⟨_, _, he⟩
  · rw [ha] at ha2
    cases ha2
  · rw [he] at hf
    cases hf
  · obtain ⟨c, hres, hl⟩ := hc
    exact ⟨c, hres, by rw [he]; exact hl⟩
  · exact ⟨c, hres, by rw [he]; exact alLookup_alInsert_self s.name (hash c) st.store⟩
  · rw [he] at hf
    cases hf

/-- A non-aborted step on a secret whose stored digest already equals the
digest of its resolved content is a pure `Unchanged` classification: only
the outcome list grows. -/
theorem processSecret_unchanged (st : LoopState) (s : DeploySecret)
    (ha : st.aborted = false)
    (hc : ∃ c, resolveWithRetry resolver cfg.maxRetries s.reference = .ok c ∧
      alLookup s.name st.store = some (hash c)) :
    processSecret hash resolver writeOk cfg st s =
      { st with outcomes := st.outcomes ++ [(s.name, Outcome.unchanged)] } := by
  obtain ⟨c, hres, hl⟩ := hc
  unfold processSecret
  rw [if_neg (by simp [ha]), hres]
  simp only [if_pos hl]

/-! ### Whole-loop lemmas -/

/-- The per-secret loop only ever appends write events. -/
theorem foldl_events (l : List DeploySecret) : ∀ st : LoopState,
    ∃ extra,
      (l.foldl (processSecret hash resolver writeOk cfg) st).events = st.events ++ extra ∧
      ∀ e ∈ extra, e.isWrite = true := by
  induction l with
  | nil => intro st; exact ⟨[], by simp, by simp⟩
  | cons a t ih =>
      intro st
      obtain ⟨extra, he, hw⟩ := ih (processSecret hash resolver writeOk cfg st a)
      rcases processSecret_write_char hash resolver writeOk cfg st a with
        ⟨_, _, hev⟩ | ⟨c, _, _, _, hev⟩
      · exact ⟨extra, by rw [List.foldl_cons, he, hev], hw⟩
      · refine ⟨Event.writeFile a.destPath c :: extra, ?_, ?_⟩
        · rw [List.foldl_cons, he, hev, List.append_assoc]
          rfl
        · intro e hme
          rcases List.mem_cons.mp hme with h1 | h1
          · rw [h1]
            rfl
          · exact hw e h1

/-- The failure flag is monotone across the loop. -/
theorem foldl_failed_mono (l : List DeploySecret) : ∀ st : LoopState,
    st.failed = true →
    (l.foldl (processSecret hash resolver writeOk cfg) st).failed = true := by
  induction l with
  | nil => intro st h; exact h
  | cons a t ih =>
      intro st h
      exact ih _ (processSecret_failed_mono hash resolver writeOk cfg st a h)

/-- Outcomes already recorded survive to the end of the loop. -/
theorem foldl_outcomes_mono (l : List DeploySecret) : ∀ (st : LoopState)
    (q : String × Outcome), q ∈ st.outcomes →
    q ∈ (l.foldl (processSecret hash resolver writeOk cfg) st).outcomes := by
  induction l with
  | nil => intro st q h; exact h
  | cons a t ih =>
      intro st q h
      apply ih
      obtain ⟨o, heq, _⟩ := processSecret_outcome hash resolver writeOk cfg st a
      rw [heq]
      exact List.mem_append_left _ h

/-- If the loop ends failed but started clean, some secret carries a
`Failed` outcome in the final report. -/
theorem foldl_failure_outcome (l : List DeploySecret) : ∀ st : LoopState,
    st.failed = false →
    (l.foldl (processSecret hash resolver writeOk cfg) st).failed = true →
    ∃ n, (n, Outcome.failed) ∈
      (l.foldl (processSecret hash resolver writeOk cfg) st).outcomes := by
  induction l with
  | nil =>
      intro st h0 h1
      simp only [List.foldl_nil] at h1
      rw [h0] at h1
      cases h1
  | cons a t ih =>
      intro st h0 h1
      rw [List.foldl_cons] at h1 ⊢
      cases hs : (processSecret hash resolver writeOk cfg st a).failed with
      | true =>
          exact ⟨a.name, foldl_outcomes_mono hash resolver writeOk cfg t _ _
            (processSecret_new_failure hash resolver writeOk cfg st a h0 hs)⟩
      | false => exact ih _ hs h1

/-- The abort flag implies the failure flag throughout the loop. -/
theorem foldl_abort_failed (l : List DeploySecret) : ∀ st : LoopState,
    (st.aborted = true → st.failed = true) →
    (l.foldl (processSecret hash resolver writeOk cfg) st).aborted = true →
    (l.foldl (processSecret hash resolver writeOk cfg) st).failed = true := by
  induction l with
  | nil => intro st h; exact h
  | cons a t ih =>
      intro st h
      exact ih _ (processSecret_abort_failed hash resolver writeOk cfg st a h)

/-- With `continueOnError` off, abort equals failure across the loop. -/
theorem foldl_abort_sync (l : List DeploySecret) (hc : cfg.continueOnError = false) :
    ∀ st : LoopState, st.aborted = st.failed →
    (l.foldl (processSecret hash resolver writeOk cfg) st).aborted =
    (l.foldl (processSecret hash resolver writeOk cfg) st).failed := by
  induction l with
  | nil => intro st h; exact h
  | cons a t ih =>
      intro st h
      exact ih _ (processSecret_abort_sync hash resolver writeOk cfg st a hc h)

/-- Store records of names not processed by the loop are untouched. -/
theorem foldl_store_pres (l : List DeploySecret) : ∀ (st : LoopState) (k : String),
    k ∉ l.map DeploySecret.name →
    alLookup k (l.foldl (processSecret hash resolver writeOk cfg) st).store =
    alLookup k st.store := by
  induction l with
  | nil => intro st k _; rfl
  | cons a t ih =>
      intro st k hk
      simp only [List.map_cons, List.mem_cons, not_or] at hk
      rw [List.foldl_cons, ih _ k hk.2]
      rcases processSecret_write_char hash resolver writeOk cfg st a with
        ⟨hs, _, _⟩ | ⟨c, _, hs, _, _⟩
      · rw [hs]
      · rw [hs]
        exact alLookup_alInsert_ne k a.name (hash c) st.store (fun he => hk.1 he.symm)

/-- Filesystem entries at paths not processed by the loop are untouched. -/
theorem foldl_fs_pres (l : List DeploySecret) : ∀ (st : LoopState) (p : String),
    p ∉ l.map DeploySecret.destPath →
    alLookup p (l.foldl (processSecret hash resolver writeOk cfg) st).fs =
    alLookup p st.fs := by
  induction l with
  | nil => intro st p _; rfl
  | cons a t ih =>
      intro st p hp
      simp only [List.map_cons, List.mem_cons, not_or] at hp
      rw [List.foldl_cons, ih _ p hp.2]
      rcases processSecret_write_char hash resolver writeOk cfg st a with
        ⟨_, hf, _⟩ | ⟨c, _, _, hf, _⟩
      · rw [hf]
      · rw [hf]
        exact alLookup_alInsert_ne p a.destPath c st.fs (fun he => hp.1 he.symm)

/-- In a loop that never failed and never started aborted, every secret
resolved, and the final in-memory store holds the digest of its resolved
content under its name (names must be unique, as the loader guarantees). -/
theorem foldl_success_store (l : List DeploySecret) : ∀ st : LoopState,
    (l.map DeploySecret.name).Nodup →
    st.aborted = false →
    (l.foldl (processSecret hash resolver writeOk cfg) st).failed = false →
    ∀ s ∈ l, ∃ c, resolveWithRetry resolver cfg.maxRetries s.reference = .ok c ∧
      alLookup s.name (l.foldl (processSecret hash resolver writeOk cfg) st).store =
        some (hash c) := by
  induction l with
  | nil =>
      intro st _ _ _ s hs
      simp at hs
  | cons a t ih =>
      intro st hnd ha hf s hs
      rw [List.foldl_cons] at hf ⊢
      simp only [List.map_cons, List.nodup_cons] at hnd
      have hf1 : (processSecret hash resolver writeOk cfg st a).failed = false := by
        cases hx : (processSecret hash resolver writeOk cfg st a).failed with
        | false => rfl
        | true =>
            have := foldl_failed_mono hash resolver writeOk cfg t _ hx
            rw [hf] at this
            cases this
      have ha1 : (processSecret hash resolver writeOk cfg st a).aborted = false := by
        cases hx : (processSecret hash resolver writeOk cfg st a).aborted with
        | false => rfl
        | true =>
            have := processSecret_abort_failed hash resolver writeOk cfg st a
              (fun h2 => by rw [ha] at h2; cases h2) hx
            rw [hf1] at this
            cases this
      rcases List.mem_cons.mp hs with he | hm
      · subst he
        obtain ⟨c, hres, hl⟩ :=
          processSecret_store_digest hash resolver writeOk cfg st s ha hf1
        refine ⟨c, hres, ?_⟩
        rw [foldl_store_pres hash resolver writeOk cfg t _ s.name hnd.1, hl]
      · exact ih _ hnd.2 ha1 hf s hm

/-- A loop over secrets whose stored digests already match their resolved
contents is a pure `Unchanged` pass: the state is unchanged except for the
appended `Unchanged` outcomes. -/
theorem foldl_unchanged (l : List DeploySecret) : ∀ st : LoopState,
    st.aborted = false →
    (∀ s ∈ l, ∃ c, resolveWithRetry resolver cfg.maxRetries s.reference = .ok c ∧
      alLookup s.name st.store = some (hash c)) →
    l.foldl (processSecret hash resolver writeOk cfg) st =
      { st with
        outcomes := st.outcomes ++ l.map (fun s => (s.name, Outcome.unchanged)) } := by
  induction l with
  | nil => intro st _ _; simp
  | cons a t ih =>
      intro st ha hst
      rw [List.foldl_cons,
        processSecret_unchanged hash resolver writeOk cfg st a ha
          (hst a (List.mem_cons_self a t)),
        ih { st with outcomes := st.outcomes ++ [(a.name, Outcome.unchanged)] }
          (by exact ha) (fun s hm => hst s (List.mem_cons_of_mem a hm))]
      simp [List.append_assoc]

/-- Store provenance: at the end of the loop every in-memory record either
was already in the pre-run store or records the digest of content that is
durably present at its secret's destination (destination paths must be
unique, as the loader guarantees). -/
theorem foldl_store_prov (all : List DeploySecret)
    (store0 : List (String × String)) :
    ∀ (l : List DeploySecret) (st : LoopState),
      (l.map DeploySecret.destPath).Nodup →
      (∀ s ∈ l, s ∈ all) →
      (∀ q ∈ st.store, q ∈ store0 ∨ ∃ s, s ∈ all ∧ s.name = q.1 ∧
        ∃ c, resolveWithRetry resolver cfg.maxRetries s.reference = .ok c ∧
          q.2 = hash c ∧ alLookup s.destPath st.fs = some c ∧
          s.destPath ∉ l.map DeploySecret.destPath) →
      ∀ q ∈ (l.foldl (processSecret hash resolver writeOk cfg) st).store,
        q ∈ store0 ∨ ∃ s, s ∈ all ∧ s.name = q.1 ∧
          ∃ c, resolveWithRetry resolver cfg.maxRetries s.reference = .ok c ∧
            q.2 = hash c ∧
            alLookup s.destPath
              (l.foldl (processSecret hash resolver writeOk cfg) st).fs = some c := by
  intro l
  induction l with
  | nil =>
      intro st _ _ hst q hq
      rcases hst q hq with h0 | ⟨s, hall, hn, c, hr, hh, hlk, _⟩
      · exact Or.inl h0
      · exact Or.inr ⟨s, hall, hn, c, hr, hh, hlk⟩
  | cons a t ih =>
      intro st hnd hsub hst
      rw [List.foldl_cons]
      simp only [List.map_cons, List.nodup_cons] at hnd
      apply ih _ hnd.2 (fun s hm => hsub s (List.mem_cons_of_mem a hm))
      intro q hq
      rcases processSecret_write_char hash resolver writeOk cfg st a with
        ⟨hs, hfs, _⟩ | ⟨c, hres, hs, hfs, _⟩
      · rw [hs] at hq
        rcases hst q hq with h0 | ⟨s, hall, hn, c', hr, hh, hlk, hnp⟩
        · exact Or.inl h0
        · refine Or.inr ⟨s, hall, hn, c', hr, hh, ?_, ?_⟩
          · rw [hfs]
            exact hlk
          · exact fun hm => hnp (List.mem_cons_of_mem _ hm)
      · rw [hs] at hq
        rcases List.mem_cons.mp hq with he | hqf
        · refine Or.inr ⟨a, hsub a (List.mem_cons_self a t), ?_, c, hres, ?_, ?_, ?_⟩
          · rw [he]
          · rw [he]
          · rw [hfs]
            exact alLookup_alInsert_self a.destPath c st.fs
          · exact hnd.1
        · have hq' : q ∈ st.store := List.mem_of_mem_filter hqf
          rcases hst q hq' with h0 | ⟨s, hall, hn, c', hr, hh, hlk, hnp⟩
          · exact Or.inl h0
          · have hne : s.destPath ≠ a.destPath := by
              intro he
              exact hnp (by rw [he]; exact List.mem_cons_self _ _)
            refine Or.inr ⟨s, hall, hn, c', hr, hh, ?_, ?_⟩
            · rw [hfs]
              rw [alLookup_alInsert_ne s.destPath a.destPath c st.fs
                (fun he => hne he.symm)]
              exact hlk
            · exact fun hm => hnp (List.mem_cons_of_mem _ hm)

/-- Every file write recorded by the loop is still present, with its
written content, in the loop's final filesystem (destination paths must be
unique). -/
theorem foldl_write_persist (l : List DeploySecret) : ∀ st : LoopState,
    (l.map DeploySecret.destPath).Nodup →
    (∀ p c, Event.writeFile p c ∈ st.events →
      alLookup p st.fs = some c ∧ p ∉ l.map DeploySecret.destPath) →
    ∀ p c, Event.writeFile p c ∈
        (l.foldl (processSecret hash resolver writeOk cfg) st).events →
      alLookup p (l.foldl (processSecret hash resolver writeOk cfg) st).fs =
        some c := by
  induction l with
  | nil =>
      intro st _ hst p c hev
      exact (hst p c hev).1
  | cons a t ih =>
      intro st hnd hst
      rw [List.foldl_cons]
      simp only [List.map_cons, List.nodup_cons] at hnd
      apply ih _ hnd.2
      intro p c hev
      rcases processSecret_write_char hash resolver writeOk cfg st a with
        ⟨_, hfs, hevq⟩ | ⟨c', hres, _, hfs, hevq⟩
      · rw [hevq] at hev
        obtain ⟨h1, h2⟩ := hst p c hev
        refine ⟨?_, fun hm => h2 (List.mem_cons_of_mem _ hm)⟩
        rw [hfs]
        exact h1
      · rw [hevq] at hev
        rcases List.mem_append.mp hev with hold | hnew
        · obtain ⟨h1, h2⟩ := hst p c hold
          have hne : p ≠ a.destPath := fun he => h2 (by rw [he]; exact List.mem_cons_self _ _)
          refine ⟨?_, fun hm => h2 (List.mem_cons_of_mem _ hm)⟩
          rw [hfs, alLookup_alInsert_ne p a.destPath c' st.fs (fun he => hne he.symm)]
          exact h1
        · simp only [List.mem_singleton] at hnew
          injection hnew with hp hc
          subst hp
          subst hc
          refine ⟨?_, ?_⟩
          · rw [hfs]
            exact alLookup_alInsert_self _ _ _
          · exact hnd.1

/-- Outcomes pass through the end-of-run decision unchanged. -/
theorem finalize_outcomes (fs0 store0 : List (String × String)) (st : LoopState) :
    (finalize cfg fs0 store0 st).outcomes = st.outcomes := by
  unfold finalize
  split
  · rfl
  · rfl

/-- The end-of-run decision in the abort / rollback case. -/
theorem finalize_stop (fs0 store0 : List (String × String)) (st : LoopState)
    (h : (st.aborted || (st.failed && cfg.rollbackOnFailure)) = true) :
    finalize cfg fs0 store0 st =
      { outcomes := st.outcomes, events := st.events,
        fs := if cfg.rollbackOnFailure then restoreFs fs0 st.writtenSecrets st.fs else st.fs,
        storeOnDisk := store0, notified := [], success := false } := by
  unfold finalize
  rw [if_pos h]

/-- The end-of-run decision in the commit / notify case. -/
theorem finalize_go (fs0 store0 : List (String × String)) (st : LoopState)
    (h : (st.aborted || (st.failed && cfg.rollbackOnFailure)) = false) :
    finalize cfg fs0 store0 st =
      { outcomes := st.outcomes,
        events := st.events ++ [Event.commitStore st.store] ++
          (dedupServices (st.writtenSecrets.flatMap DeploySecret.services)).map Event.notify,
        fs := st.fs, storeOnDisk := st.store,
        notified := dedupServices (st.writtenSecrets.flatMap DeploySecret.services),
        success := !st.failed } := by
  unfold finalize
  rw [if_neg (by simp [h])]

/-- A loop that ends clean produced no `Failed` outcome of its own. -/
theorem foldl_no_failure (l : List DeploySecret) : ∀ st : LoopState,
    (l.foldl (processSecret hash resolver writeOk cfg) st).failed = false →
    ∀ q ∈ (l.foldl (processSecret hash resolver writeOk cfg) st).outcomes,
      q ∈ st.outcomes ∨ q.2 ≠ Outcome.failed := by
  induction l with
  | nil =>
      intro st _ q hq
      exact Or.inl hq
  | cons a t ih =>
      intro st h q hq
      rw [List.foldl_cons] at h hq
      obtain ⟨o, heq, hiff⟩ := processSecret_outcome hash resolver writeOk cfg st a
      rcases ih _ h q hq with hin | hne
      · rw [heq] at hin
        rcases List.mem_append.mp hin with h1 | h1
        · exact Or.inl h1
        · simp only [List.mem_singleton] at h1
          subst h1
          refine Or.inr ?_
          intro ho
          have hstep : (processSecret hash resolver writeOk cfg st a).failed = true :=
            hiff.mpr (Or.inr ho)
          have := foldl_failed_mono hash resolver writeOk cfg t _ hstep
          rw [h] at this
          cases this
      · exact Or.inr hne

end EngineLemmas

/-! ## Claim theorems -/

/-- Claim C1: in every run the hash store is committed at most once; the
commit comes only after every file write of the run (no write event follows
the first commit event); and every record in the on-disk store after the
run either predates the run or holds the digest of resolved content that is
durably present at its secret's destination in the post-run filesystem. -/
theorem hashStore_commit_once_after_writes (hash : String → String)
    (resolver : String → Except ResolveError String) (writeOk : String → Bool)
    (cfg : EngineConfig) (secrets : List DeploySecret)
    (fs0 store0 : List (String × String))
    (hpaths : (secrets.map DeploySecret.destPath).Nodup) :
    ((runEngine hash resolver writeOk cfg secrets fs0 store0).events.filter
        Event.isCommit).length ≤ 1 ∧
    ((runEngine hash resolver writeOk cfg secrets fs0 store0).events.filter Event.isWrite =
      ((runEngine hash resolver writeOk cfg secrets fs0 store0).events.takeWhile
        (fun e => !e.isCommit)).filter Event.isWrite) ∧
    (∀ q ∈ (runEngine hash resolver writeOk cfg secrets fs0 store0).storeOnDisk,
      q ∈ store0 ∨ ∃ s, s ∈ secrets ∧ s.name = q.1 ∧
        ∃ c, resolveWithRetry resolver cfg.maxRetries s.reference = .ok c ∧
          q.2 = hash c ∧
          alLookup s.destPath
            (runEngine hash resolver writeOk cfg secrets fs0 store0).fs = some c) := by
  obtain ⟨extra, hev, hwr⟩ :=
    foldl_events hash resolver writeOk cfg secrets (initState fs0 store0)
  have hev' :
      (secrets.foldl (processSecret hash resolver writeOk cfg) (initState fs0 store0)).events =
        extra := by
    simpa [initState] using hev
  have hnc : ∀ e ∈ extra, e.isCommit = false :=
    fun e he => Event.isWrite_not_isCommit (hwr e he)
  unfold runEngine
  cases hcond : ((secrets.foldl (processSecret hash resolver writeOk cfg)
      (initState fs0 store0)).aborted ||
      ((secrets.foldl (processSecret hash resolver writeOk cfg)
        (initState fs0 store0)).failed && cfg.rollbackOnFailure)) with
  | true =>
      rw [finalize_stop cfg fs0 store0 _ hcond]
      refine ⟨?_, ?_, ?_⟩
      · rw [hev', filter_none _ extra hnc]
        simp
      · rw [hev', takeWhile_all _ extra (fun e he => by rw [hnc e he]; rfl)]
      · intro q hq
        exact Or.inl hq
  | false =>
      rw [finalize_go cfg fs0 store0 _ hcond]
      have hncom : ∀ e ∈ (dedupServices
          ((secrets.foldl (processSecret hash resolver writeOk cfg)
            (initState fs0 store0)).writtenSecrets.flatMap DeploySecret.services)).map
          Event.notify, Event.isCommit e = false := by
        intro e he
        obtain ⟨x, _, hx⟩ := List.mem_map.mp he
        rw [← hx]
        rfl
      have hnw : ∀ e ∈ (dedupServices
          ((secrets.foldl (processSecret hash resolver writeOk cfg)
            (initState fs0 store0)).writtenSecrets.flatMap DeploySecret.services)).map
          Event.notify, Event.isWrite e = false := by
        intro e he
        obtain ⟨x, _, hx⟩ := List.mem_map.mp he
        rw [← hx]
        rfl
      refine ⟨?_, ?_, ?_⟩
      · rw [hev']
        simp only [List.filter_append, filter_none _ extra hnc, filter_none _ _ hncom]
        simp [Event.isCommit]
      · rw [hev', List.append_assoc, List.singleton_append,
          takeWhile_append_stop _ extra _ _ (fun e he => by rw [hnc e he]; rfl) rfl]
        simp only [List.filter_append, List.filter_cons, filter_none _ _ hnw]
        simp [Event.isWrite]
      · intro q hq
        have hprov := foldl_store_prov hash resolver writeOk cfg secrets store0 secrets
          (initState fs0 store0) hpaths (fun s hs => hs)
          (fun q2 hq2 => Or.inl (by simpa [initState] using hq2)) q hq
        exact hprov

/-- Claim C2: if a run of the engine succeeded (every outcome `Written` or
`Unchanged`), a second run over the same manifest with the same resolver,
starting from the first run's filesystem and committed store, performs no
file write and no service notification: every secret is classified
`Unchanged`. -/
theorem secondRun_idempotent (hash : String → String)
    (resolver : String → Except ResolveError String)
    (writeOk writeOk2 : String → Bool) (cfg : EngineConfig)
    (secrets : List DeploySecret) (fs0 store0 : List (String × String))
    (hnames : (secrets.map DeploySecret.name).Nodup)
    (hfirst : ∀ o ∈ (runEngine hash resolver writeOk cfg secrets fs0 store0).outcomes,
      o.2 = Outcome.written ∨ o.2 = Outcome.unchanged) :
    ((runEngine hash resolver writeOk2 cfg secrets
        (runEngine hash resolver writeOk cfg secrets fs0 store0).fs
        (runEngine hash resolver writeOk cfg secrets fs0 store0).storeOnDisk).events.filter
      Event.isWrite = []) ∧
    ((runEngine hash resolver writeOk2 cfg secrets
        (runEngine hash resolver writeOk cfg secrets fs0 store0).fs
        (runEngine hash resolver writeOk cfg secrets fs0 store0).storeOnDisk).notified = []) ∧
    (∀ o ∈ (runEngine hash resolver writeOk2 cfg secrets
        (runEngine hash resolver writeOk cfg secrets fs0 store0).fs
        (runEngine hash resolver writeOk cfg secrets fs0 store0).storeOnDisk).outcomes,
      o.2 = Outcome.unchanged) := by
  have hfail1 : (secrets.foldl (processSecret hash resolver writeOk cfg)
      (initState fs0 store0)).failed = false := by
    cases hx : (secrets.foldl (processSecret hash resolver writeOk cfg)
        (initState fs0 store0)).failed with
    | false => rfl
    | true =>
        obtain ⟨n, hn⟩ := foldl_failure_outcome hash resolver writeOk cfg secrets
          (initState fs0 store0) rfl hx
        have hn2 : (n, Outcome.failed) ∈
            (runEngine hash resolver writeOk cfg secrets fs0 store0).outcomes := by
          unfold runEngine
          rw [finalize_outcomes]
          exact hn
        rcases hfirst _ hn2 with h | h
        · cases h
        · cases h
  have hab1 : (secrets.foldl (processSecret hash resolver writeOk cfg)
      (initState fs0 store0)).aborted = false := by
    cases hx : (secrets.foldl (processSecret hash resolver writeOk cfg)
        (initState fs0 store0)).aborted with
    | false => rfl
    | true =>
        have := foldl_abort_failed hash resolver writeOk cfg secrets (initState fs0 store0)
          (fun h => by cases h) hx
        rw [hfail1] at this
        cases this
  have hcond : ((secrets.foldl (processSecret hash resolver writeOk cfg)
      (initState fs0 store0)).aborted ||
      ((secrets.foldl (processSecret hash resolver writeOk cfg)
        (initState fs0 store0)).failed && cfg.rollbackOnFailure)) = false := by
    rw [hfail1, hab1]
    rfl
  have hstore := foldl_success_store hash resolver writeOk cfg secrets
    (initState fs0 store0) hnames rfl hfail1
  have hr1 : runEngine hash resolver writeOk cfg secrets fs0 store0 =
      finalize cfg fs0 store0 (secrets.foldl (processSecret hash resolver writeOk cfg)
        (initState fs0 store0)) := rfl
  rw [hr1, finalize_go cfg fs0 store0 _ hcond]
  have hrun2 : secrets.foldl (processSecret hash resolver writeOk2 cfg)
      (initState (secrets.foldl (processSecret hash resolver writeOk cfg)
          (initState fs0 store0)).fs
        (secrets.foldl (processSecret hash resolver writeOk cfg)
          (initState fs0 store0)).store) =
      { initState (secrets.foldl (processSecret hash resolver writeOk cfg)
            (initState fs0 store0)).fs
          (secrets.foldl (processSecret hash resolver writeOk cfg)
            (initState fs0 store0)).store with
        outcomes := [] ++ secrets.map (fun s => (s.name, Outcome.unchanged)) } :=
    foldl_unchanged hash resolver writeOk2 cfg secrets _ rfl
      (fun s hs => hstore s hs)
  refine ⟨?_, ?_, ?_⟩
  · show ((runEngine hash resolver writeOk2 cfg secrets _ _).events.filter Event.isWrite) = []
    unfold runEngine
    rw [hrun2, finalize_go cfg _ _ _ (by rfl)]
    rfl
  · show (runEngine hash resolver writeOk2 cfg secrets _ _).notified = []
    unfold runEngine
    rw [hrun2, finalize_go cfg _ _ _ (by rfl)]
    rfl
  · intro o ho
    revert ho
    show o ∈ (runEngine hash resolver writeOk2 cfg secrets _ _).outcomes → _
    unfold runEngine
    rw [hrun2, finalize_go cfg _ _ _ (by rfl)]
    intro ho
    simp only [List.nil_append] at ho
    obtain ⟨x, _, hx⟩ := List.mem_map.mp ho
    rw [← hx]

/-- Claim C3 counterexample: the documented default of
`systemdIntegration.errorHandling.continueOnError` is `true`, not `false`
(src/unnamed/part_003, configuration reference). -/
theorem continueOnError_default_true :
    errorHandlingDefaults.continueOnError = true ∧
    ¬ errorHandlingDefaults.continueOnError = false := by
  constructor
  · rfl
  · intro h
    cases h

/-- Claim C3 (amended): `continueOnError` defaults to `true`; under
`continueOnError = false` (and without rollback) a per-secret failure in
the resolve / write phase aborts the run: no hash-store commit happens, the
on-disk store stays as loaded, no service is notified, the run reports
failure, and every file already written in the run is left in place with
its written content. -/
theorem strict_failure_aborts_run (hash : String → String)
    (resolver : String → Except ResolveError String) (writeOk : String → Bool)
    (cfg : EngineConfig) (secrets : List DeploySecret)
    (fs0 store0 : List (String × String))
    (hc : cfg.continueOnError = false)
    (hrb : cfg.rollbackOnFailure = false)
    (hpaths : (secrets.map DeploySecret.destPath).Nodup)
    (hfail : ∃ n, (n, Outcome.failed) ∈
      (runEngine hash resolver writeOk cfg secrets fs0 store0).outcomes) :
    errorHandlingDefaults.continueOnError = true ∧
    (runEngine hash resolver writeOk cfg secrets fs0 store0).events.filter
      Event.isCommit = [] ∧
    (runEngine hash resolver writeOk cfg secrets fs0 store0).storeOnDisk = store0 ∧
    (runEngine hash resolver writeOk cfg secrets fs0 store0).notified = [] ∧
    (runEngine hash resolver writeOk cfg secrets fs0 store0).success = false ∧
    ∀ p c, Event.writeFile p c ∈
        (runEngine hash resolver writeOk cfg secrets fs0 store0).events →
      alLookup p (runEngine hash resolver writeOk cfg secrets fs0 store0).fs = some c := by
  have hfailed : (secrets.foldl (processSecret hash resolver writeOk cfg)
      (initState fs0 store0)).failed = true := by
    cases hx : (secrets.foldl (processSecret hash resolver writeOk cfg)
        (initState fs0 store0)).failed with
    | true => rfl
    | false =>
        obtain ⟨n, hn⟩ := hfail
        have hn2 : (n, Outcome.failed) ∈
            (secrets.foldl (processSecret hash resolver writeOk cfg)
              (initState fs0 store0)).outcomes := by
          have hr : runEngine hash resolver writeOk cfg secrets fs0 store0 =
              finalize cfg fs0 store0 (secrets.foldl (processSecret hash resolver writeOk cfg)
                (initState fs0 store0)) := rfl
          rw [hr, finalize_outcomes] at hn
          exact hn
        rcases foldl_no_failure hash resolver writeOk cfg secrets (initState fs0 store0)
          hx (n, Outcome.failed) hn2 with h1 | h1
        · simp [initState] at h1
        · exact (h1 rfl).elim
  have habort : (secrets.foldl (processSecret hash resolver writeOk cfg)
      (initState fs0 store0)).aborted = true := by
    have := foldl_abort_sync hash resolver writeOk cfg secrets hc (initState fs0 store0) rfl
    rw [this, hfailed]
  have hcond : ((secrets.foldl (processSecret hash resolver writeOk cfg)
      (initState fs0 store0)).aborted ||
      ((secrets.foldl (processSecret hash resolver writeOk cfg)
        (initState fs0 store0)).failed && cfg.rollbackOnFailure)) = true := by
    rw [habort]
    rfl
  obtain ⟨extra, hev, hwr⟩ :=
    foldl_events hash resolver writeOk cfg secrets (initState fs0 store0)
  have hev' : (secrets.foldl (processSecret hash resolver writeOk cfg)
      (initState fs0 store0)).events = extra := by
    simpa [initState] using hev
  have hr : runEngine hash resolver writeOk cfg secrets fs0 store0 =
      finalize cfg fs0 store0 (secrets.foldl (processSecret hash resolver writeOk cfg)
        (initState fs0 store0)) := rfl
  rw [hr, finalize_stop cfg fs0 store0 _ hcond]
  refine ⟨rfl, ?_, rfl, rfl, rfl, ?_⟩
  · rw [hev']
    exact filter_none _ extra
      (fun e he => Event.isWrite_not_isCommit (hwr e he))
  · intro p c hevm
    rw [hrb]
    simp only [if_neg Bool.false_ne_true]
    exact foldl_write_persist hash resolver writeOk cfg secrets (initState fs0 store0)
      hpaths (fun p2 c2 h2 => absurd h2 (by simp [initState])) p c hevm

/-! ### Module evaluation helpers -/

theorem moduleEval_ok_iff (cf : List String) (secrets : List DeclSecret) :
    exceptOk (moduleEval cf secrets) = true ↔
      ∀ a ∈ moduleAssertions cf secrets, a.1 = true := by
  unfold moduleEval
  cases hf : (moduleAssertions cf secrets).find? (fun a => !a.1) with
  | none =>
      simp only [exceptOk]
      constructor
      · intro _ a ha
        have := List.find?_eq_none.mp hf a ha
        simpa using this
      · intro _
        trivial
  | some a =>
      simp only [exceptOk]
      constructor
      · intro h
        cases h
      · intro hall
        have h1 := List.find?_some hf
        have h2 := List.mem_of_find?_eq_some hf
        rw [hall a h2] at h1
        cases h1

theorem moduleAssertions_all_iff (cf : List String) (secrets : List DeclSecret) :
    (∀ a ∈ moduleAssertions cf secrets, a.1 = true) ↔
      ((cf ≠ [] ∨ secrets ≠ []) ∧ ∀ s ∈ secrets, octalModeMatch s.mode = true) := by
  constructor
  · intro h
    refine ⟨?_, ?_⟩
    · have := h _ (List.mem_cons_self _ _)
      simpa using this
    · intro s hs
      have := h _ (List.mem_cons_of_mem _ (List.mem_map.mpr ⟨s, hs, rfl⟩))
      simpa using this
  · rintro ⟨h1, h2⟩ a ha
    rcases List.mem_cons.mp ha with he | hm
    · rw [he]
      simpa using h1
    · obtain ⟨s, hs, hx⟩ := List.mem_map.mp hm
      rw [← hx]
      simpa using h2 s hs

/-! ## Claim theorems for the loader and the module -/

/-- Claim C4: the resolved destination path equals the explicit `path` when
one is given; when the path is absent it is the expansion of the configured
`pathTemplate` under the secret's variables plus the defaults; only when no
template is configured does it fall back to `outputDir/name`. -/
theorem destPath_resolution (outputDir : String) (pathTemplate : Option String)
    (defaults : List (String × String)) (s : SecretSpec) :
    (∀ p, s.path = some p →
      resolveSecretPath outputDir pathTemplate defaults s = .ok p) ∧
    (∀ t, s.path = none → pathTemplate = some t →
      resolveSecretPath outputDir pathTemplate defaults s =
        expandTemplate (lookupVar s defaults) t) ∧
    (s.path = none → pathTemplate = none →
      resolveSecretPath outputDir pathTemplate defaults s =
        .ok (outputDir ++ "/" ++ s.name)) := by
  refine ⟨?_, ?_, ?_⟩
  · intro p hp
    unfold resolveSecretPath
    rw [hp]
  · intro t hp ht
    unfold resolveSecretPath
    rw [hp, ht]
  · intro hp ht
    unfold resolveSecretPath
    rw [hp, ht]

/-- Witness for C4 at concrete inputs. -/
theorem destPath_resolution_witness :
    resolveSecretPath "/out" (some "/etc/{name}") [] ⟨"n1", some "/exp", []⟩ = .ok "/exp" ∧
    resolveSecretPath "/out" (some "/etc/{name}") [] ⟨"n1", none, []⟩ =
      expandTemplate (lookupVar ⟨"n1", none, []⟩ []) "/etc/{name}" ∧
    resolveSecretPath "/out" none [] ⟨"n1", none, []⟩ = .ok ("/out" ++ "/" ++ "n1") :=
  ⟨(destPath_resolution "/out" (some "/etc/{name}") [] ⟨"n1", some "/exp", []⟩).1 "/exp" rfl,
   (destPath_resolution "/out" (some "/etc/{name}") [] ⟨"n1", none, []⟩).2.1
     "/etc/{name}" rfl rfl,
   (destPath_resolution "/out" none [] ⟨"n1", none, []⟩).2.2 rfl rfl⟩

/-- Claim C5: the spec's template-correctness example — template
`/etc/secrets/{service}/{name}` with defaults `environment = prod`,
secret `dbpass` with variable `service = pg` resolves to
`/etc/secrets/pg/dbpass`; with `service` absent from both the secret's
variables and the defaults, resolution fails with a ConfigError naming
`service`. -/
theorem pathTemplate_example :
    resolveSecretPath "/var/lib/opnix/secrets" (some "/etc/secrets/{service}/{name}")
      [("environment", "prod")] ⟨"dbpass", none, [("service", "pg")]⟩ =
      .ok "/etc/secrets/pg/dbpass" ∧
    resolveSecretPath "/var/lib/opnix/secrets" (some "/etc/secrets/{service}/{name}")
      [("environment", "prod")] ⟨"dbpass", none, []⟩ =
      .error (.missingVariable "service") := by
  constructor
  · rfl
  · rfl

/-- Claim C6 counterexample: with two config files the unit script deploys
the first file's secrets before the second file is even loaded, so the
manifests are not merged into a single manifest before any secret is
resolved or written. -/
theorem configFiles_not_merged :
    mergedLoadDiscipline (scriptEvents ["a", "b"]) = false ∧
    scriptEvents ["a", "b"] =
      [.loadConfig "a", .deployConfig "a", .loadConfig "b", .deployConfig "b"] := by
  constructor
  · rfl
  · rfl

/-- Claim C6 (amended): the config files are processed strictly
sequentially, one separate engine invocation per file in file-list order:
the i-th file is loaded at script position 2i and fully deployed at
position 2i+1 — so each earlier file is resolved and written before any
later file is loaded, and no cross-file merge or duplicate check exists. -/
theorem configFiles_sequential : ∀ (files : List String) (i : Nat)
    (h : i < files.length),
    (scriptEvents files)[2 * i]? = some (.loadConfig files[i]) ∧
    (scriptEvents files)[2 * i + 1]? = some (.deployConfig files[i]) := by
  intro files
  induction files with
  | nil =>
      intro i h
      simp at h
  | cons f rest ih =>
      intro i h
      match i with
      | 0 =>
          exact ⟨by simp [scriptEvents, invocationEvents], by simp [scriptEvents, invocationEvents]⟩
      | j + 1 =>
          have hj : j < rest.length := Nat.lt_of_succ_lt_succ h
          have hse : scriptEvents (f :: rest) =
              RunEvent.loadConfig f :: RunEvent.deployConfig f :: scriptEvents rest := rfl
          have hmul1 : 2 * (j + 1) = 2 * j + 1 + 1 := by ring
          have hmul2 : 2 * (j + 1) + 1 = 2 * j + 1 + 1 + 1 := by ring
          have hprev := ih j hj
          constructor
          · rw [hse, hmul1]
            simp only [List.getElem?_cons_succ]
            simpa using hprev.1
          · rw [hse, hmul2]
            simp only [List.getElem?_cons_succ]
            simpa using hprev.2

/-- Witness for C6's amended theorem at a concrete file list. -/
theorem configFiles_sequential_witness :
    (1 < (["a", "b"] : List String).length) ∧
    ((scriptEvents ["a", "b"])[2 * 1]? = some (.loadConfig "b") ∧
     (scriptEvents ["a", "b"])[2 * 1 + 1]? = some (.deployConfig "b")) :=
  ⟨by decide, by simpa using configFiles_sequential ["a", "b"] 1 (by decide)⟩

/-- Claim C7: module evaluation accepts a configuration iff, besides the
at-least-one-source assertion, every declared secret's `mode` matches the
three-or-four-octal-digits pattern; the match means exactly that the mode
has length 3 or 4 and every character is an octal digit; concretely mode
`0644` is accepted while mode `abc` is rejected at evaluation time with an
error and no script — hence before any secret is resolved or written. -/
theorem mode_octal_validation :
    (∀ (configFiles : List String) (secrets : List DeclSecret),
      exceptOk (moduleEval configFiles secrets) = true ↔
        ((configFiles ≠ [] ∨ secrets ≠ []) ∧
          ∀ s ∈ secrets, octalModeMatch s.mode = true)) ∧
    (∀ m : String, octalModeMatch m = true ↔
      ((m.length = 3 ∨ m.length = 4) ∧ ∀ c ∈ m.data, '0' ≤ c ∧ c ≤ '7')) ∧
    exceptOk (moduleEval ["files.json"] [⟨"db", "0644"⟩]) = true ∧
    moduleEval ["files.json"] [⟨"db", "abc"⟩] =
      .error ("OpNix secret db: mode abc is not a valid octal permission") := by
  refine ⟨?_, ?_, by decide, by rfl⟩
  · intro cf secrets
    rw [moduleEval_ok_iff, moduleAssertions_all_iff]
  · intro m
    unfold octalModeMatch
    constructor
    · intro h
      simp only [Bool.and_eq_true, Bool.or_eq_true, decide_eq_true_eq,
        List.all_eq_true] at h
      exact ⟨h.1, fun c hc => by simpa using h.2 c hc⟩
    · rintro ⟨h1, h2⟩
      simp only [Bool.and_eq_true, Bool.or_eq_true, decide_eq_true_eq,
        List.all_eq_true]
      exact ⟨h1, fun c hc => by simpa using h2 c hc⟩

/-- Witness for C7 at a concrete configuration. -/
theorem mode_octal_validation_witness :
    exceptOk (moduleEval [] [⟨"db", "0600"⟩]) = true :=
  (mode_octal_validation.1 [] [⟨"db", "0600"⟩]).mpr (by decide)

/-- Witness for C1 at a concrete run. -/
theorem hashStore_commit_once_witness :
    ((([⟨"a", "ra", "/pa", ["svc"]⟩] : List DeploySecret).map DeploySecret.destPath).Nodup) ∧
    ((runEngine (fun c => c) (fun r => .ok r) (fun _ => true) ⟨true, false, 0⟩
        [⟨"a", "ra", "/pa", ["svc"]⟩] [] []).events.filter Event.isCommit).length ≤ 1 :=
  ⟨by decide,
   (hashStore_commit_once_after_writes (fun c => c) (fun r => .ok r) (fun _ => true)
      ⟨true, false, 0⟩ [⟨"a", "ra", "/pa", ["svc"]⟩] [] [] (by decide)).1⟩

/-- Witness for C2 at a concrete pair of runs. -/
theorem secondRun_idempotent_witness :
    ((([⟨"a", "ra", "/pa", ["svc"]⟩] : List DeploySecret).map DeploySecret.name).Nodup) ∧
    (runEngine (fun c => c) (fun r => .ok r) (fun _ => true) ⟨true, false, 0⟩
        [⟨"a", "ra", "/pa", ["svc"]⟩]
        (runEngine (fun c => c) (fun r => .ok r) (fun _ => true) ⟨true, false, 0⟩
          [⟨"a", "ra", "/pa", ["svc"]⟩] [] []).fs
        (runEngine (fun c => c) (fun r => .ok r) (fun _ => true) ⟨true, false, 0⟩
          [⟨"a", "ra", "/pa", ["svc"]⟩] [] []).storeOnDisk).notified = [] :=
  ⟨by decide,
   (secondRun_idempotent (fun c => c) (fun r => .ok r) (fun _ => true) (fun _ => true)
      ⟨true, false, 0⟩ [⟨"a", "ra", "/pa", ["svc"]⟩] [] [] (by decide) (by decide)).2.1⟩

/-- Witness for C3 at a concrete strict run with a failing secret. -/
theorem strict_failure_aborts_run_witness :
    (("b", Outcome.failed) ∈ (runEngine (fun c => c)
        (fun r => if r = "rb" then .error .notFound else .ok r) (fun _ => true)
        ⟨false, false, 0⟩
        [⟨"a", "ra", "/pa", ["s1"]⟩, ⟨"b", "rb", "/pb", ["s2"]⟩] [] []).outcomes) ∧
    (runEngine (fun c => c) (fun r => if r = "rb" then .error .notFound else .ok r)
        (fun _ => true) ⟨false, false, 0⟩
        [⟨"a", "ra", "/pa", ["s1"]⟩, ⟨"b", "rb", "/pb", ["s2"]⟩] [] []).notified = [] :=
  ⟨by decide,
   (strict_failure_aborts_run (fun c => c)
      (fun r => if r = "rb" then .error .notFound else .ok r) (fun _ => true)
      ⟨false, false, 0⟩ [⟨"a", "ra", "/pa", ["s1"]⟩, ⟨"b", "rb", "/pb", ["s2"]⟩] [] []
      rfl rfl (by decide) ⟨"b", by decide⟩).2.2.2.1⟩

/-! ## Env processing claims -/

/-- Whether `resolveVariable` succeeds for a variable; success does not
depend on the reported index, so index 0 is used as the canonical probe. -/
def varResolves (resolver : String → Except String String) (v : EnvVariable) : Bool :=
  match resolveVariable resolver v 0 with
  | .ok _ => true
  | .error _ => false

theorem resolveVariable_index (resolver : String → Except String String)
    (v : EnvVariable) (i : Nat) :
    resolveVariable resolver v i = resolveVariable resolver v 0 ∨
    (resolveVariable resolver v i = .error (.missingDefinition i) ∧
     resolveVariable resolver v 0 = .error (.missingDefinition 0)) := by
  unfold resolveVariable
  split
  · left
    rfl
  · split
    · left
      rfl
    · right
      exact ⟨rfl, rfl⟩

theorem varResolves_ok (resolver : String → Except String String)
    (v : EnvVariable) (h : varResolves resolver v = true) (i : Nat) :
    ∃ str, resolveVariable resolver v i = .ok str ∧
      resolveVariable resolver v 0 = .ok str := by
  unfold varResolves at h
  rcases resolveVariable_index resolver v i with he | ⟨_, h0⟩
  · rw [he]
    cases h0 : resolveVariable resolver v 0 with
    | ok str => exact ⟨str, rfl, rfl⟩
    | error e =>
        rw [h0] at h
        simp at h
  · rw [h0] at h
    simp at h

theorem varResolves_err (resolver : String → Except String String)
    (v : EnvVariable) (h : varResolves resolver v = false) (i : Nat) :
    ∃ e, resolveVariable resolver v i = .error e := by
  unfold varResolves at h
  rcases resolveVariable_index resolver v i with he | ⟨hi, _⟩
  · rw [he]
    cases h0 : resolveVariable resolver v 0 with
    | ok str =>
        rw [h0] at h
        simp at h
    | error e => exact ⟨e, rfl⟩
  · exact ⟨_, hi⟩

/-- If every variable before `v` is optional or resolves, and `v` is
mandatory and fails, the whole loop returns the error raised for `v` at its
index — whatever follows `v` never affects the result. -/
theorem envProcessAux_first_failure (resolver : String → Except String String) :
    ∀ (pre : List EnvVariable) (v : EnvVariable) (post : List EnvVariable)
      (i : Nat) (acc : EnvResult),
      (∀ u ∈ pre, u.optional = true ∨ varResolves resolver u = true) →
      v.optional = false → varResolves resolver v = false →
      ∃ e, resolveVariable resolver v (i + pre.length) = .error e ∧
        envProcessAux resolver (pre ++ v :: post) i acc = .error e := by
  intro pre
  induction pre with
  | nil =>
      intro v post i acc _ hopt hres
      obtain ⟨e, he⟩ := varResolves_err resolver v hres i
      refine ⟨e, by simpa using he, ?_⟩
      simp only [List.nil_append]
      unfold envProcessAux
      rw [he, hopt]
      simp
  | cons u pre ih =>
      intro v post i acc hpre hopt hres
      have hu := hpre u (List.mem_cons_self u pre)
      have hstep : ∀ acc2, ∃ e,
          resolveVariable resolver v (i + 1 + pre.length) = .error e ∧
          envProcessAux resolver (pre ++ v :: post) (i + 1) acc2 = .error e :=
        fun acc2 => ih v post (i + 1) acc2
          (fun w hw => hpre w (List.mem_cons_of_mem u hw)) hopt hres
      have harith : i + 1 + pre.length = i + (u :: pre).length := by
        simp [List.length_cons]
        omega
      cases hr : resolveVariable resolver u i with
      | ok str =>
          obtain ⟨e, he1, he2⟩ := hstep { acc with values := alInsert u.name str acc.values }
          refine ⟨e, by rw [← harith]; exact he1, ?_⟩
          simp only [List.cons_append]
          unfold envProcessAux
          rw [hr]
          exact he2
      | error err =>
          have huo : u.optional = true := by
            rcases hu with h | h
            · exact h
            · obtain ⟨str, hs, _⟩ := varResolves_ok resolver u h i
              rw [hr] at hs
              cases hs
          obtain ⟨e, he1, he2⟩ := hstep
            { acc with skipped := acc.skipped ++ [(u.name, err)] }
          refine ⟨e, by rw [← harith]; exact he1, ?_⟩
          simp only [List.cons_append]
          unfold envProcessAux
          rw [hr, huo]
          simpa using he2

theorem mem_alInsert_keys (k v : String) (l : List (String × String)) :
    k ∈ (alInsert k v l).map Prod.fst := by
  simp [alInsert]

theorem mem_alInsert_keys_of_mem (k v k2 : String) (l : List (String × String))
    (h : k2 ∈ l.map Prod.fst) : k2 ∈ (alInsert k v l).map Prod.fst := by
  by_cases hk : k2 = k
  · rw [hk]
    exact mem_alInsert_keys k v l
  · obtain ⟨p, hp, hpe⟩ := List.mem_map.mp h
    refine List.mem_map.mpr ⟨p, ?_, hpe⟩
    simp only [alInsert]
    refine List.mem_cons_of_mem _ (List.mem_filter.mpr ⟨hp, ?_⟩)
    simp [hpe, hk]

/-- If every failing variable is optional, the loop succeeds; the skipped
names are exactly the failing variables in order, and every resolving
variable lands in the values map. -/
theorem envProcessAux_optional_skips (resolver : String → Except String String) :
    ∀ (l : List EnvVariable) (i : Nat) (acc : EnvResult),
      (∀ v ∈ l, varResolves resolver v = false → v.optional = true) →
      ∃ res, envProcessAux resolver l i acc = .ok res ∧
        res.skipped.map Prod.fst = acc.skipped.map Prod.fst ++
          (l.filter (fun v => !varResolves resolver v)).map EnvVariable.name ∧
        (∀ v ∈ l, varResolves resolver v = true →
          v.name ∈ res.values.map Prod.fst) ∧
        (∀ k, k ∈ acc.values.map Prod.fst → k ∈ res.values.map Prod.fst) := by
  intro l
  induction l with
  | nil =>
      intro i acc _
      exact ⟨acc, rfl, by simp, by simp, fun k h => h⟩
  | cons v t ih =>
      intro i acc hl
      cases hv : varResolves resolver v with
      | true =>
          obtain ⟨str, hs, _⟩ := varResolves_ok resolver v hv i
          obtain ⟨res, h1, h2, h3, h4⟩ := ih (i + 1)
            { acc with values := alInsert v.name str acc.values }
            (fun w hw => hl w (List.mem_cons_of_mem v hw))
          refine ⟨res, ?_, ?_, ?_, ?_⟩
          · unfold envProcessAux
            rw [hs]
            exact h1
          · rw [h2]
            simp [List.filter_cons, hv]
          · intro w hw hwr
            rcases List.mem_cons.mp hw with he | hm
            · rw [he]
              exact h4 v.name (mem_alInsert_keys v.name str acc.values)
            · exact h3 w hm hwr
          · intro k hk
            exact h4 k (mem_alInsert_keys_of_mem v.name str k acc.values hk)
      | false =>
          have hvo : v.optional = true := hl v (List.mem_cons_self v t) hv
          obtain ⟨e, he⟩ := varResolves_err resolver v hv i
          obtain ⟨res, h1, h2, h3, h4⟩ := ih (i + 1)
            { acc with skipped := acc.skipped ++ [(v.name, e)] }
            (fun w hw => hl w (List.mem_cons_of_mem v hw))
          refine ⟨res, ?_, ?_, ?_, h4⟩
          · unfold envProcessAux
            rw [he, hvo]
            simpa using h1
          · rw [h2]
            simp [List.filter_cons, hv]
          · intro w hw hwr
            rcases List.mem_cons.mp hw with hee | hm
            · rw [hee] at hwr
              rw [hwr] at hv
              cases hv
            · exact h3 w hm hwr

/-- Claim C8: a mandatory variable that fails to resolve makes `Process`
return that variable's error as soon as it is reached — whatever follows it
is not processed and no values map is produced; failing optional variables
are instead recorded in `Skipped`, in order, and processing continues, so
every remaining variable is still processed. -/
theorem envProcess_failure_policy (resolver : String → Except String String) :
    (∀ (pre post : List EnvVariable) (v : EnvVariable),
      (∀ u ∈ pre, u.optional = true ∨ varResolves resolver u = true) →
      v.optional = false → varResolves resolver v = false →
      ∃ e, resolveVariable resolver v pre.length = .error e ∧
        envProcess resolver (pre ++ v :: post) = .error e) ∧
    (∀ vars : List EnvVariable,
      (∀ v ∈ vars, varResolves resolver v = false → v.optional = true) →
      ∃ res, envProcess resolver vars = .ok res ∧
        res.skipped.map Prod.fst =
          (vars.filter (fun v => !varResolves resolver v)).map EnvVariable.name ∧
        ∀ v ∈ vars, varResolves resolver v = true →
          v.name ∈ res.values.map Prod.fst) := by
  constructor
  · intro pre post v hpre hopt hres
    obtain ⟨e, h1, h2⟩ := envProcessAux_first_failure resolver pre v post 0
      { values := [], skipped := [] } hpre hopt hres
    exact ⟨e, by simpa using h1, h2⟩
  · intro vars hl
    obtain ⟨res, h1, h2, h3, _⟩ := envProcessAux_optional_skips resolver vars 0
      { values := [], skipped := [] } hl
    exact ⟨res, h1, by simpa using h2, h3⟩

/-- Witness for C8 at a concrete resolver and variable lists. -/
theorem envProcess_failure_policy_witness :
    (∃ e, resolveVariable (fun r => if r = "bad" then .error "boom" else .ok "val")
        ⟨"B", "bad", "", false, false⟩
        ([⟨"A", "good", "", false, false⟩] : List EnvVariable).length = .error e ∧
      envProcess (fun r => if r = "bad" then .error "boom" else .ok "val")
        ([⟨"A", "good", "", false, false⟩] ++ ⟨"B", "bad", "", false, false⟩ ::
          [⟨"C", "good", "", false, false⟩]) = .error e) ∧
    (∃ res, envProcess (fun r => if r = "bad" then .error "boom" else .ok "val")
        [⟨"D", "bad", "", true, false⟩, ⟨"E", "", "sv", false, false⟩] = .ok res ∧
      res.skipped.map Prod.fst =
        (([⟨"D", "bad", "", true, false⟩, ⟨"E", "", "sv", false, false⟩] :
          List EnvVariable).filter
          (fun v => !varResolves (fun r => if r = "bad" then .error "boom" else .ok "val") v)).map
          EnvVariable.name ∧
      ∀ v ∈ ([⟨"D", "bad", "", true, false⟩, ⟨"E", "", "sv", false, false⟩] :
          List EnvVariable),
        varResolves (fun r => if r = "bad" then .error "boom" else .ok "val") v = true →
          v.name ∈ res.values.map Prod.fst) :=
  ⟨(envProcess_failure_policy (fun r => if r = "bad" then .error "boom" else .ok "val")).1
      [⟨"A", "good", "", false, false⟩] [⟨"C", "good", "", false, false⟩]
      ⟨"B", "bad", "", false, false⟩ (by decide) rfl (by decide),
   (envProcess_failure_policy (fun r => if r = "bad" then .error "boom" else .ok "val")).2
      [⟨"D", "bad", "", true, false⟩, ⟨"E", "", "sv", false, false⟩] (by decide)⟩

/-- The per-variable validation loop accepts exactly the lists whose every
variable has a pattern-conforming name and exactly one of reference and
value set. -/
theorem validateEnvVarsAux_none (l : List EnvVariable) : ∀ i : Nat,
    validateEnvVarsAux l i = none ↔
      ∀ v ∈ l, envNameMatch v.name = true ∧
        ((v.reference ≠ "" ∧ v.value = "") ∨ (v.reference = "" ∧ v.value ≠ "")) := by
  induction l with
  | nil =>
      intro i
      simp [validateEnvVarsAux]
  | cons v t ih =>
      intro i
      unfold validateEnvVarsAux
      by_cases h1 : v.name = ""
      · rw [if_pos h1]
        simp only [List.forall_mem_cons]
        constructor
        · intro h
          cases h
        · rintro ⟨⟨hx, _⟩, _⟩
          rw [h1] at hx
          exact absurd hx (by decide)
      · rw [if_neg h1]
        by_cases h2 : envNameMatch v.name = true
        · by_cases h3 : v.reference ≠ "" ∧ v.value ≠ ""
          · rw [if_neg (by simp [h2]), if_pos (by simp [h3.1, h3.2])]
            simp only [List.forall_mem_cons]
            constructor
            · intro h
              cases h
            · rintro ⟨⟨_, hx | hx⟩, _⟩
              · exact absurd hx.2 h3.2
              · exact absurd hx.1 (by simpa using h3.1)
          · by_cases h4 : v.reference = "" ∧ v.value = ""
            · rw [if_neg (by simp [h2]),
                if_neg (by simp [h4.1]), if_pos (by simp [h4.1, h4.2])]
              simp only [List.forall_mem_cons]
              constructor
              · intro h
                cases h
              · rintro ⟨⟨_, hx | hx⟩, _⟩
                · exact absurd h4.1 (by simpa using hx.1)
                · exact absurd h4.2 (by simpa using hx.2)
            · have hxor : (v.reference ≠ "" ∧ v.value = "") ∨
                  (v.reference = "" ∧ v.value ≠ "") := by
                by_cases hr : v.reference = ""
                · by_cases hval : v.value = ""
                  · exact absurd ⟨hr, hval⟩ h4
                  · exact Or.inr ⟨hr, hval⟩
                · by_cases hval : v.value = ""
                  · exact Or.inl ⟨hr, hval⟩
                  · exact absurd ⟨hr, hval⟩ h3
              rw [if_neg (by simp [h2]),
                if_neg (by simp only [Bool.and_eq_true, decide_eq_true_eq]; exact h3),
                if_neg (by simp only [Bool.and_eq_true, decide_eq_true_eq]; exact h4),
                ih (i + 1)]
              simp only [List.forall_mem_cons]
              constructor
              · intro h
                exact ⟨⟨h2, hxor⟩, h⟩
              · rintro ⟨_, h⟩
                exact h
        · rw [if_pos (by simp [h2])]
          simp only [List.forall_mem_cons]
          constructor
          · intro h
            cases h
          · rintro ⟨⟨hx, _⟩, _⟩
            exact absurd hx h2

/-- Claim C9: `validateEnvConfig` returns nil exactly when the
configuration has at least one variable and every variable both matches
the `^[A-Z][A-Z0-9_]*$` name pattern and sets exactly one of `reference`
and `value` to a non-empty string; every other configuration (empty list,
empty or ill-formed name, both set, neither set) yields a validation
error. -/
theorem validateEnvConfig_nil_iff (vars : List EnvVariable) :
    validateEnvConfig vars = none ↔
      (vars ≠ [] ∧ ∀ v ∈ vars, envNameMatch v.name = true ∧
        ((v.reference ≠ "" ∧ v.value = "") ∨ (v.reference = "" ∧ v.value ≠ ""))) := by
  unfold validateEnvConfig
  by_cases h : vars.length = 0
  · have hnil : vars = [] := List.length_eq_zero.mp h
    rw [if_pos h]
    simp [hnil]
  · rw [if_neg h, validateEnvVarsAux_none]
    have hne : vars ≠ [] := fun he => h (by rw [he]; rfl)
    simp [hne]

/-- Witness for C9 at concrete configurations. -/
theorem validateEnvConfig_nil_iff_witness :
    validateEnvConfig [⟨"API_TOKEN", "op://v/i/f", "", false, false⟩] = none :=
  (validateEnvConfig_nil_iff [⟨"API_TOKEN", "op://v/i/f", "", false, false⟩]).mpr
    (by decide)

/-! ## Rendering claims -/

theorem mem_replaceChar {c : Char} {rep l : List Char} {x : Char}
    (h : x ∈ replaceChar c rep l) : x ∈ rep ∨ (x ∈ l ∧ x ≠ c) := by
  unfold replaceChar at h
  obtain ⟨y, hy, hx⟩ := List.mem_flatMap.mp h
  by_cases hyc : y = c
  · rw [if_pos hyc] at hx
    exact Or.inl hx
  · rw [if_neg hyc] at hx
    simp only [List.mem_singleton] at hx
    subst hx
    exact Or.inr ⟨hy, hyc⟩

/-- The dotenv escaping never leaves a newline in its output. -/
theorem nl_not_mem_dotenvValueL (v : List Char) : '\n' ∉ dotenvValueL v := by
  unfold dotenvValueL
  split
  · simp
  · split
    · intro hmem
      rcases List.mem_cons.mp hmem with he | hm
      · exact absurd he (by decide)
      · rcases List.mem_append.mp hm with h1 | h1
        · rcases mem_replaceChar h1 with hr | ⟨h2, _⟩
          · revert hr
            decide
          · rcases mem_replaceChar h2 with hr | ⟨h3, _⟩
            · revert hr
              decide
            · rcases mem_replaceChar h3 with hr | ⟨h4, hne⟩
              · revert hr
                decide
              · exact hne rfl
        · revert h1
          decide
    · next hany =>
        intro hmem
        exact hany (List.any_eq_true.mpr ⟨'\n', hmem, by decide⟩)

/-- Shell quoting introduces no newline of its own. -/
theorem nl_not_mem_shellQuoteL (v : List Char) (h : '\n' ∉ v) :
    '\n' ∉ shellQuoteL v := by
  unfold shellQuoteL
  split
  · intro hm
    revert hm
    decide
  · intro hm
    rcases List.mem_cons.mp hm with he | hm2
    · exact absurd he (by decide)
    · rcases List.mem_append.mp hm2 with h1 | h1
      · rcases mem_replaceChar h1 with hr | ⟨hv, _⟩
        · revert hr
          decide
        · exact h hv
      · revert h1
        decide

theorem count_nl_eq_zero {l : List Char} (h : '\n' ∉ l) : l.count '\n' = 0 :=
  List.count_eq_zero.mpr h

theorem count_nl_flatMap (keys : List String) (f : String → List Char)
    (hf : ∀ k ∈ keys, (f k).count '\n' = 1) :
    (keys.flatMap f).count '\n' = keys.length := by
  induction keys with
  | nil => rfl
  | cons k t ih =>
      rw [List.flatMap_cons, List.count_append, hf k (List.mem_cons_self k t),
        ih (fun w hw => hf w (List.mem_cons_of_mem k hw)), List.length_cons]
      omega

theorem renderShell_entry_count (values : List (String × String)) (k : String)
    (hk : '\n' ∉ k.data)
    (hv : ∀ p ∈ values, '\n' ∉ p.2.data) :
    ("export ".data ++ k.data ++ ['='] ++
      shellQuoteL ((alLookup k values).getD "").data ++ ['\n']).count '\n' = 1 := by
  have hval : '\n' ∉ ((alLookup k values).getD "").data := by
    cases hl : alLookup k values with
    | some w => exact hv (k, w) (alLookup_mem hl)
    | none => simp
  simp only [List.count_append]
  rw [count_nl_eq_zero (show ('\n' ∉ "export ".data) by decide), count_nl_eq_zero hk,
    count_nl_eq_zero (show ('\n' ∉ ['=']) by decide),
    count_nl_eq_zero (nl_not_mem_shellQuoteL _ hval)]
  rfl

theorem renderDotenv_entry_count (values : List (String × String)) (k : String)
    (hk : '\n' ∉ k.data) :
    (k.data ++ ['='] ++ dotenvValueL ((alLookup k values).getD "").data ++
      ['\n']).count '\n' = 1 := by
  simp only [List.count_append]
  rw [count_nl_eq_zero hk, count_nl_eq_zero (show ('\n' ∉ ['=']) by decide),
    count_nl_eq_zero (nl_not_mem_dotenvValueL _)]
  rfl

/-- Claim C10 counterexample: a single variable whose value embeds a
newline makes `renderShell` emit two lines, not one — `shellQuote` keeps
the newline inside the single quotes. -/
theorem renderShell_one_line_counterexample :
    ([("A", "x\ny")] : List (String × String)).length = 1 ∧
    (renderShell [("A", "x\ny")]).data.count '\n' = 2 ∧
    (renderDotenv [("A", "x\ny")]).data.count '\n' = 1 := by
  refine ⟨rfl, by decide, by decide⟩

/-- Claim C10 (amended): the renderers emit one entry per variable, keyed
in ascending sorted order, so the output is a deterministic function of the
key-value mapping — permuting the entries of a duplicate-free map changes
nothing.  `renderDotenv` emits exactly one line per variable whenever keys
are newline-free (values are escaped); `renderShell` emits exactly one line
per variable when the values are newline-free as well, a value with an
embedded newline spanning several lines. -/
theorem render_sorted_deterministic :
    (∀ l1 l2 : List (String × String), l1.Perm l2 → (l1.map Prod.fst).Nodup →
      renderShell l1 = renderShell l2 ∧ renderDotenv l1 = renderDotenv l2) ∧
    (∀ values : List (String × String),
      List.Sorted (· ≤ ·) (sortStrings (values.map Prod.fst)) ∧
      (sortStrings (values.map Prod.fst)).Perm (values.map Prod.fst)) ∧
    (∀ values : List (String × String),
      (∀ k ∈ values.map Prod.fst, '\n' ∉ k.data) →
      ((renderDotenv values).data.count '\n' = values.length ∧
        ((∀ p ∈ values, '\n' ∉ p.2.data) →
          (renderShell values).data.count '\n' = values.length))) := by
  refine ⟨?_, ?_, ?_⟩
  · intro l1 l2 hperm hnd
    have hnd2 : (l2.map Prod.fst).Nodup := ((hperm.map Prod.fst).nodup_iff).mp hnd
    have hkeys : sortStrings (l1.map Prod.fst) = sortStrings (l2.map Prod.fst) := by
      unfold sortStrings
      refine List.eq_of_perm_of_sorted ?_ (List.sorted_insertionSort _ _)
        (List.sorted_insertionSort _ _)
      exact (List.perm_insertionSort _ _).trans
        ((hperm.map Prod.fst).trans (List.perm_insertionSort _ _).symm)
    have hlk : ∀ k, alLookup k l1 = alLookup k l2 := by
      intro k
      cases hl : alLookup k l1 with
      | some w =>
          rw [mem_alLookup hnd2 (hperm.subset (alLookup_mem hl))]
      | none =>
          rw [alLookup_eq_none_iff.mpr
            (fun hm => (alLookup_eq_none_iff.mp hl)
              ((hperm.map Prod.fst).mem_iff.mpr hm))]
    have hshell : renderShellL l1 = renderShellL l2 := by
      unfold renderShellL
      rw [hkeys]
      congr 1
      funext k
      rw [hlk k]
    have hdot : renderDotenvL l1 = renderDotenvL l2 := by
      unfold renderDotenvL
      rw [hkeys]
      congr 1
      funext k
      rw [hlk k]
    exact ⟨congrArg String.mk hshell, congrArg String.mk hdot⟩
  · intro values
    unfold sortStrings
    exact ⟨List.sorted_insertionSort _ _, List.perm_insertionSort _ _⟩
  · intro values hk
    constructor
    · show (renderDotenvL values).count '\n' = values.length
      unfold renderDotenvL sortStrings
      rw [count_nl_flatMap]
      · rw [(List.perm_insertionSort _ _).length_eq]
        exact List.length_map _ _
      · intro k hks
        exact renderDotenv_entry_count values k
          (hk k ((List.perm_insertionSort _ _).mem_iff.mp hks))
    · intro hv
      show (renderShellL values).count '\n' = values.length
      unfold renderShellL sortStrings
      rw [count_nl_flatMap]
      · rw [(List.perm_insertionSort _ _).length_eq]
        exact List.length_map _ _
      · intro k hks
        exact renderShell_entry_count values k
          (hk k ((List.perm_insertionSort _ _).mem_iff.mp hks)) hv

/-- Witness for C10's amended theorem at a concrete permuted pair. -/
theorem render_sorted_deterministic_witness :
    (([("B", "2"), ("A", "1")] : List (String × String)).Perm
      [("A", "1"), ("B", "2")] ∧
      ((([("B", "2"), ("A", "1")] : List (String × String)).map Prod.fst).Nodup)) ∧
    renderShell [("B", "2"), ("A", "1")] = renderShell [("A", "1"), ("B", "2")] :=
  ⟨⟨by decide, by decide⟩,
   (render_sorted_deterministic.1 [("B", "2"), ("A", "1")] [("A", "1"), ("B", "2")]
      (by decide) (by decide)).1⟩

end Opnix
